import Mathlib

/-!
Item registry (`StorageManager`) of `src/main.cpp`.

A shallow embedding of the dual-index registry:

* `StoredItem` is the immutable record (id, description, location).
* A container of the class is a finite map from `std::string` keys to item
  records, embedded as a list of entries with strictly ascending keys
  (`KeysAscending`). The same representation stands for `std::map` (whose
  iteration order is the key order) and for `std::unordered_map` (whose
  iteration order the program never observes, so the key-ordered list is the
  canonical representative of the finite map).
* The member functions that throw return the outcome together with the state
  of the manager after the call, so that "the state is unchanged on failure" is
  a statement about the returned state.

`std::string` is embedded as `String`; `operator<` on `std::string` is the
lexicographic comparison of the character sequences (`strLess`), which agrees
with the order `<` on `String`.
-/

/-! ## Data model -/

/-- Record of `class StoredItem`: three immutable string fields. -/
structure StoredItem where
  id : String
  description : String
  location : String
deriving DecidableEq, Repr

/-- Accessor `StoredItem::getId`. -/
abbrev StoredItem.getId (x : StoredItem) : String := x.id

/-- Accessor `StoredItem::getDescription`. -/
abbrev StoredItem.getDescription (x : StoredItem) : String := x.description

/-- Accessor `StoredItem::getLocation`. -/
abbrev StoredItem.getLocation (x : StoredItem) : String := x.location

/-- The two exception classes of the program, each carrying its message. -/
inductive StorageError where
  | DuplicateItemException (msg : String)
  | ItemNotFoundException (msg : String)
deriving DecidableEq, Repr

deriving instance DecidableEq for Except

/-! ## Finite maps with ordered keys -/

/-- Comparison `operator<` of `std::string`: lexicographic on the characters. -/
def strLess (a b : String) : Bool := decide (a.toList < b.toList)

/-- Lookup of a key in a list of entries (`find`): the entry with that key. -/
def entriesFind (k : String) : List (String × StoredItem) → Option StoredItem
  | [] => none
  | (k', v) :: rest => if k' = k then some v else entriesFind k rest

/-- Member `count` of a map with unique keys: one if the key is found, else zero. -/
def entriesCount (k : String) (l : List (String × StoredItem)) : Nat :=
  match entriesFind k l with
  | some _ => 1
  | none => 0

/-- Assignment `m[k] = v` on a key-ordered list of entries: the value of an
existing entry is replaced, a new entry is inserted at its place in key order. -/
def entriesAssign (k : String) (v : StoredItem) :
    List (String × StoredItem) → List (String × StoredItem)
  | [] => [(k, v)]
  | (k', v') :: rest =>
    if strLess k k' then (k, v) :: (k', v') :: rest
    else if k = k' then (k, v) :: rest
    else (k', v') :: entriesAssign k v rest

/-- Removal of the entry found for a key (`erase` of the iterator from `find`). -/
def entriesErase (k : String) : List (String × StoredItem) → List (String × StoredItem)
  | [] => []
  | (k', v') :: rest => if k' = k then rest else (k', v') :: entriesErase k rest

/-- Keys strictly ascending along the list: the list is a map value. -/
def KeysAscending (l : List (String × StoredItem)) : Prop :=
  l.Pairwise (fun a b => a.1 < b.1)

/-! ## The registry -/

/-- State of `class StorageManager`: the primary index `itemById` and the
secondary index `itemByDescription`. -/
structure StorageManager where
  itemById : List (String × StoredItem)
  itemByDescription : List (String × StoredItem)
deriving DecidableEq, Repr

/-- A freshly constructed manager: both indexes empty. -/
def StorageManager.empty : StorageManager := ⟨[], []⟩

/-- Both containers are map values (unique, ordered keys). -/
def StorageManager.WellFormed (m : StorageManager) : Prop :=
  KeysAscending m.itemById ∧ KeysAscending m.itemByDescription

/-- Member `addItem`: throws when the id is already in `itemById`, otherwise
assigns the item in `itemById` under its id and in `itemByDescription` under
its description. -/
def StorageManager.addItem (m : StorageManager) (item : StoredItem) :
    Except StorageError Unit × StorageManager :=
  let id := item.getId
  if entriesCount id m.itemById ≠ 0 then
    (.error (.DuplicateItemException ("Item using id " ++ id ++ " already exists!")), m)
  else
    let m1 : StorageManager := { m with itemById := entriesAssign id item m.itemById }
    let m2 : StorageManager :=
      { m1 with itemByDescription :=
          entriesAssign item.getDescription item m1.itemByDescription }
    (.ok (), m2)

/-- Member `findById` (a `const` member): the record stored under the id, or
`ItemNotFoundException`. -/
def StorageManager.findById (m : StorageManager) (id : String) :
    Except StorageError StoredItem :=
  match entriesFind id m.itemById with
  | none => .error (.ItemNotFoundException ("Item using id " ++ id ++ " not found."))
  | some x => .ok x

/-- Member `removeItem`: throws when the id is not in `itemById`; otherwise
erases the id from `itemById`, then erases the entry of the removed record's
description from `itemByDescription` when that entry exists and its record has
the removed id. -/
def StorageManager.removeItem (m : StorageManager) (id : String) :
    Except StorageError Unit × StorageManager :=
  match entriesFind id m.itemById with
  | none => (.error (.ItemNotFoundException ("Item using id " ++ id ++ " not found.")), m)
  | some x =>
    let desc := x.getDescription
    let m1 : StorageManager := { m with itemById := entriesErase id m.itemById }
    match entriesFind desc m1.itemByDescription with
    | some y =>
      if y.getId = id then
        (.ok (), { m1 with itemByDescription := entriesErase desc m1.itemByDescription })
      else (.ok (), m1)
    | none => (.ok (), m1)

/-- Member `listItemsByDescription` (a `const` member): the sequence of
(description, location) pairs written to the output, one line per entry of
`itemByDescription` in iteration order; each pair is read from the record. -/
def StorageManager.listItemsByDescription (m : StorageManager) : List (String × String) :=
  m.itemByDescription.map (fun pair => (pair.2.getDescription, pair.2.getLocation))

/-! ## Sequences of calls -/

/-- A mutating call made by a client of the registry. -/
inductive Op where
  | add (item : StoredItem)
  | remove (id : String)
deriving DecidableEq, Repr

/-- One call: its outcome and the state after it. -/
def StorageManager.call (m : StorageManager) : Op → Except StorageError Unit × StorageManager
  | .add item => m.addItem item
  | .remove id => m.removeItem id

/-- State after a sequence of calls; a client that catches an exception goes
on with the state the failed call left. -/
def StorageManager.run (m : StorageManager) : List Op → StorageManager
  | [] => m
  | op :: ops => StorageManager.run (m.call op).2 ops

/-- Outcomes of the calls of a sequence, in order. -/
def StorageManager.outcomes (m : StorageManager) : List Op → List (Except StorageError Unit)
  | [] => []
  | op :: ops => (m.call op).1 :: StorageManager.outcomes (m.call op).2 ops

/-- State reached from the empty registry by a sequence of calls. -/
def reached (ops : List Op) : StorageManager := StorageManager.empty.run ops

/-- An item is live when the primary index maps its id to it. -/
def StorageManager.Live (m : StorageManager) (x : StoredItem) : Prop :=
  entriesFind x.id m.itemById = some x

/-- Consistency of the two indexes: every primary entry is filed under the id
of its record, and every secondary entry is filed under the description of its
record, which is live. -/
def StorageManager.Consistent (m : StorageManager) : Prop :=
  (∀ k x, entriesFind k m.itemById = some x → x.id = k) ∧
  (∀ d x, entriesFind d m.itemByDescription = some x → x.description = d ∧ m.Live x)

/-- Item most recently added under the description `d` along a sequence of
calls run from `m`, where `acc` is that item for the calls made before: a call
of `addItem` that does not throw and whose item has the description `d` makes
its item the most recent one; no other call changes it (a removed item stays
the item last added under its description). -/
def StorageManager.lastAdded (m : StorageManager) (d : String) (acc : Option StoredItem) :
    List Op → Option StoredItem
  | [] => acc
  | .add item :: ops =>
    StorageManager.lastAdded (m.addItem item).2 d
      (match (m.addItem item).1 with
        | .ok _ => if item.description = d then some item else acc
        | .error _ => acc) ops
  | .remove id :: ops => StorageManager.lastAdded (m.removeItem id).2 d acc ops

/-- The secondary index entry of the description `d` is the item `last` when
that item is live, and there is no entry otherwise; `last` has the
description `d`. -/
def StorageManager.SlotTracks (m : StorageManager) (d : String)
    (last : Option StoredItem) : Prop :=
  (∀ e, last = some e → e.description = d) ∧
  ∀ e, entriesFind d m.itemByDescription = some e ↔ (last = some e ∧ m.Live e)

/-- Live items in the order of their addition, most recent first, along a
sequence of calls run from `m` with the items `acc` live at the start: a call
of `addItem` that does not throw puts its item in front, a call of `removeItem`
drops the item with the removed id. -/
def StorageManager.liveByRecency (m : StorageManager) (acc : List StoredItem) :
    List Op → List StoredItem
  | [] => acc
  | .add item :: ops =>
    StorageManager.liveByRecency (m.addItem item).2
      (match (m.addItem item).1 with
        | .ok _ => item :: acc
        | .error _ => acc) ops
  | .remove id :: ops =>
    StorageManager.liveByRecency (m.removeItem id).2 (acc.filter (fun x => x.id ≠ id)) ops

/-- The list `order` holds exactly the live items of `m`, and every secondary
index entry is the first item of `order` with the description of the entry. -/
def StorageManager.RecencyOrdered (m : StorageManager) (order : List StoredItem) : Prop :=
  (∀ x, x ∈ order ↔ m.Live x) ∧
  ∀ d e, entriesFind d m.itemByDescription = some e →
    (order.filter (fun x => x.description = d)).head? = some e

/-- A read-only call made by a client of the registry. -/
inductive Query where
  | findById (id : String)
  | listItemsByDescription
deriving DecidableEq, Repr

/-- What a read-only call gives back. -/
inductive Answer where
  | item (r : Except StorageError StoredItem)
  | listing (l : List (String × String))
deriving DecidableEq

/-- One read-only call: what it gives back and the state after it. Both
members are `const` and only read the two containers, so the state after the
call is the state before it. -/
def StorageManager.ask (m : StorageManager) : Query → Answer × StorageManager
  | .findById id => (.item (m.findById id), m)
  | .listItemsByDescription => (.listing m.listItemsByDescription, m)

/-! ## Lemmas on maps -/

theorem strLess_iff (a b : String) : strLess a b = true ↔ a < b := by
  unfold strLess
  rw [decide_eq_true_iff]
  exact String.lt_iff_toList_lt.symm

theorem entriesFind_mem {k : String} {v : StoredItem} :
    ∀ {l : List (String × StoredItem)}, entriesFind k l = some v → (k, v) ∈ l
  | [], h => by simp [entriesFind] at h
  | (k', v') :: rest, h => by
    unfold entriesFind at h
    split at h
    · rename_i hk
      cases h
      subst hk
      exact List.mem_cons_self _ _
    · exact List.mem_cons_of_mem _ (entriesFind_mem h)

theorem entriesFind_of_mem {k : String} {v : StoredItem} :
    ∀ {l : List (String × StoredItem)}, KeysAscending l → (k, v) ∈ l →
      entriesFind k l = some v
  | [], _, h => by simp at h
  | (k', v') :: rest, hs, h => by
    unfold KeysAscending at hs
    rw [List.pairwise_cons] at hs
    rcases List.mem_cons.1 h with h | h
    · cases h
      simp [entriesFind]
    · have hlt : k' < k := hs.1 _ h
      have hne : k' ≠ k := ne_of_lt hlt
      simp only [entriesFind, hne, if_false]
      exact entriesFind_of_mem hs.2 h

theorem entriesFind_none_of_lt {k : String} :
    ∀ {l : List (String × StoredItem)}, (∀ e ∈ l, k < e.1) → entriesFind k l = none
  | [], _ => rfl
  | (k', v') :: rest, h => by
    have hne : k' ≠ k := ne_of_gt (h (k', v') (List.mem_cons_self _ _))
    simp only [entriesFind, hne, if_false]
    exact entriesFind_none_of_lt (fun e he => h e (List.mem_cons_of_mem _ he))

theorem entriesFind_assign_self (k : String) (v : StoredItem) :
    ∀ l : List (String × StoredItem), entriesFind k (entriesAssign k v l) = some v
  | [] => by simp [entriesAssign, entriesFind]
  | (k', v') :: rest => by
    unfold entriesAssign
    split
    · simp [entriesFind]
    · split
      · simp [entriesFind]
      · rename_i hne
        have hne' : k' ≠ k := fun h => hne h.symm
        simp only [entriesFind, hne', if_false]
        exact entriesFind_assign_self k v rest

theorem entriesFind_assign_ne {j k : String} (v : StoredItem) (hjk : j ≠ k) :
    ∀ l : List (String × StoredItem), entriesFind j (entriesAssign k v l) = entriesFind j l
  | [] => by
    have : k ≠ j := fun h => hjk h.symm
    simp [entriesAssign, entriesFind, this]
  | (k', v') :: rest => by
    have hkj : k ≠ j := fun h => hjk h.symm
    unfold entriesAssign
    split
    · simp [entriesFind, hkj]
    · split
      · rename_i hk
        subst hk
        simp [entriesFind, hkj]
      · simp only [entriesFind]
        rw [entriesFind_assign_ne v hjk rest]

theorem entriesFind_erase_ne {j k : String} (hjk : j ≠ k) :
    ∀ l : List (String × StoredItem), entriesFind j (entriesErase k l) = entriesFind j l
  | [] => rfl
  | (k', v') :: rest => by
    unfold entriesErase
    split
    · rename_i hk
      subst hk
      have : k' ≠ j := fun h => hjk h.symm
      simp [entriesFind, this]
    · simp only [entriesFind]
      rw [entriesFind_erase_ne hjk rest]

theorem entriesFind_erase_self (k : String) :
    ∀ {l : List (String × StoredItem)}, KeysAscending l → entriesFind k (entriesErase k l) = none
  | [], _ => rfl
  | (k', v') :: rest, hs => by
    unfold KeysAscending at hs
    rw [List.pairwise_cons] at hs
    unfold entriesErase
    split
    · rename_i hk
      subst hk
      exact entriesFind_none_of_lt (fun e he => hs.1 e he)
    · rename_i hk
      simp only [entriesFind, hk, if_false]
      exact entriesFind_erase_self k hs.2

theorem entriesErase_of_find_none {k : String} :
    ∀ {l : List (String × StoredItem)}, entriesFind k l = none → entriesErase k l = l
  | [], _ => rfl
  | (k', v') :: rest, h => by
    unfold entriesFind at h
    split at h
    · cases h
    · rename_i hk
      simp only [entriesErase, hk, if_false]
      rw [entriesErase_of_find_none h]

theorem entriesAssign_mem {k : String} {v : StoredItem} {e : String × StoredItem} :
    ∀ {l : List (String × StoredItem)}, e ∈ entriesAssign k v l → e = (k, v) ∨ e ∈ l
  | [], h => by
    simp only [entriesAssign, List.mem_singleton] at h
    exact Or.inl h
  | (k', v') :: rest, h => by
    unfold entriesAssign at h
    split at h
    · rcases List.mem_cons.1 h with h | h
      · exact Or.inl h
      · exact Or.inr h
    · split at h
      · rcases List.mem_cons.1 h with h | h
        · exact Or.inl h
        · exact Or.inr (List.mem_cons_of_mem _ h)
      · rcases List.mem_cons.1 h with h | h
        · exact Or.inr (h ▸ List.mem_cons_self _ _)
        · rcases entriesAssign_mem h with h | h
          · exact Or.inl h
          · exact Or.inr (List.mem_cons_of_mem _ h)

theorem entriesErase_mem {k : String} {e : String × StoredItem} :
    ∀ {l : List (String × StoredItem)}, e ∈ entriesErase k l → e ∈ l
  | [], h => h
  | (k', v') :: rest, h => by
    unfold entriesErase at h
    split at h
    · exact List.mem_cons_of_mem _ h
    · rcases List.mem_cons.1 h with h | h
      · exact h ▸ List.mem_cons_self _ _
      · exact List.mem_cons_of_mem _ (entriesErase_mem h)

theorem entriesAssign_ascending (k : String) (v : StoredItem) :
    ∀ {l : List (String × StoredItem)}, KeysAscending l → KeysAscending (entriesAssign k v l)
  | [], _ => by simp [entriesAssign, KeysAscending]
  | (k', v') :: rest, hs => by
    have hs' := hs
    unfold KeysAscending at hs'
    rw [List.pairwise_cons] at hs'
    unfold entriesAssign
    split
    · rename_i hlt
      have hlt' : k < k' := (strLess_iff k k').1 hlt
      unfold KeysAscending
      rw [List.pairwise_cons]
      refine ⟨?_, hs⟩
      intro e he
      rcases List.mem_cons.1 he with he | he
      · rw [he]; exact hlt'
      · exact lt_trans hlt' (hs'.1 e he)
    · split
      · rename_i hk
        subst hk
        unfold KeysAscending
        rw [List.pairwise_cons]
        exact ⟨hs'.1, hs'.2⟩
      · rename_i hnlt hne
        have hnlt' : ¬ k < k' := fun h => hnlt ((strLess_iff k k').2 h)
        have hgt : k' < k := lt_of_le_of_ne (not_lt.1 hnlt') (fun h => hne h.symm)
        unfold KeysAscending
        rw [List.pairwise_cons]
        refine ⟨?_, entriesAssign_ascending k v hs'.2⟩
        intro e he
        rcases entriesAssign_mem he with he | he
        · rw [he]; exact hgt
        · exact hs'.1 e he

theorem entriesErase_ascending (k : String) :
    ∀ {l : List (String × StoredItem)}, KeysAscending l → KeysAscending (entriesErase k l)
  | [], h => h
  | (k', v') :: rest, hs => by
    have hs' := hs
    unfold KeysAscending at hs'
    rw [List.pairwise_cons] at hs'
    unfold entriesErase
    split
    · exact hs'.2
    · unfold KeysAscending
      rw [List.pairwise_cons]
      exact ⟨fun e he => hs'.1 e (entriesErase_mem he), entriesErase_ascending k hs'.2⟩

/-! ## Lemmas on the member functions -/

theorem addItem_absent (m : StorageManager) (item : StoredItem)
    (h : entriesFind item.id m.itemById = none) :
    m.addItem item =
      (.ok (), ⟨entriesAssign item.id item m.itemById,
                entriesAssign item.description item m.itemByDescription⟩) := by
  simp [StorageManager.addItem, entriesCount, h]

theorem addItem_present (m : StorageManager) (item x : StoredItem)
    (h : entriesFind item.id m.itemById = some x) :
    m.addItem item =
      (.error (.DuplicateItemException ("Item using id " ++ item.id ++ " already exists!")), m) := by
  simp [StorageManager.addItem, entriesCount, h]

theorem removeItem_absent (m : StorageManager) (id : String)
    (h : entriesFind id m.itemById = none) :
    m.removeItem id =
      (.error (.ItemNotFoundException ("Item using id " ++ id ++ " not found.")), m) := by
  simp [StorageManager.removeItem, h]

theorem removeItem_present (m : StorageManager) (id : String) (x : StoredItem)
    (h : entriesFind id m.itemById = some x) :
    m.removeItem id =
      (.ok (), ⟨entriesErase id m.itemById,
                match entriesFind x.description m.itemByDescription with
                | some y =>
                  if y.id = id then entriesErase x.description m.itemByDescription
                  else m.itemByDescription
                | none => m.itemByDescription⟩) := by
  simp only [StorageManager.removeItem, h]
  cases hd : entriesFind x.description m.itemByDescription with
  | none => simp [hd]
  | some y =>
    by_cases hy : y.id = id <;> simp [hd, hy]

theorem findById_of_find (m : StorageManager) (id : String) (x : StoredItem)
    (h : entriesFind id m.itemById = some x) : m.findById id = .ok x := by
  simp [StorageManager.findById, h]

theorem findById_of_none (m : StorageManager) (id : String)
    (h : entriesFind id m.itemById = none) :
    m.findById id = .error (.ItemNotFoundException ("Item using id " ++ id ++ " not found.")) := by
  simp [StorageManager.findById, h]

/-! ## Invariants of reachable states -/

theorem wellFormed_addItem (m : StorageManager) (item : StoredItem) (h : m.WellFormed) :
    (m.addItem item).2.WellFormed := by
  cases hf : entriesFind item.id m.itemById with
  | some x => rw [addItem_present m item x hf]; exact h
  | none =>
    rw [addItem_absent m item hf]
    exact ⟨entriesAssign_ascending _ _ h.1, entriesAssign_ascending _ _ h.2⟩

theorem wellFormed_removeItem (m : StorageManager) (id : String) (h : m.WellFormed) :
    (m.removeItem id).2.WellFormed := by
  cases hf : entriesFind id m.itemById with
  | none => rw [removeItem_absent m id hf]; exact h
  | some x =>
    rw [removeItem_present m id x hf]
    refine ⟨entriesErase_ascending _ h.1, ?_⟩
    show KeysAscending (match entriesFind x.description m.itemByDescription with
      | some y =>
        if y.id = id then entriesErase x.description m.itemByDescription
        else m.itemByDescription
      | none => m.itemByDescription)
    split
    · split
      · exact entriesErase_ascending _ h.2
      · exact h.2
    · exact h.2

theorem consistent_addItem (m : StorageManager) (item : StoredItem) (h : m.Consistent) :
    (m.addItem item).2.Consistent := by
  cases hf : entriesFind item.id m.itemById with
  | some x => rw [addItem_present m item x hf]; exact h
  | none =>
    rw [addItem_absent m item hf]
    constructor
    · intro k x hk
      by_cases hki : k = item.id
      · subst hki
        rw [entriesFind_assign_self] at hk
        cases hk
        rfl
      · rw [entriesFind_assign_ne item hki] at hk
        exact h.1 k x hk
    · intro d x hd
      by_cases hdi : d = item.description
      · subst hdi
        rw [entriesFind_assign_self] at hd
        cases hd
        exact ⟨rfl, entriesFind_assign_self _ _ _⟩
      · rw [entriesFind_assign_ne item hdi] at hd
        obtain ⟨hx, hlive⟩ := h.2 d x hd
        refine ⟨hx, ?_⟩
        have hne : x.id ≠ item.id := by
          intro he
          unfold StorageManager.Live at hlive
          rw [he, hf] at hlive
          cases hlive
        show entriesFind x.id (entriesAssign item.id item m.itemById) = some x
        rw [entriesFind_assign_ne item hne]
        exact hlive

theorem consistent_removeItem (m : StorageManager) (id : String) (hw : m.WellFormed)
    (h : m.Consistent) : (m.removeItem id).2.Consistent := by
  cases hf : entriesFind id m.itemById with
  | none => rw [removeItem_absent m id hf]; exact h
  | some x0 =>
    rw [removeItem_present m id x0 hf]
    have hx0 : x0.id = id := h.1 id x0 hf
    constructor
    · intro k x hk
      by_cases hki : k = id
      · subst hki
        rw [show entriesFind k (entriesErase k m.itemById) = none from
          entriesFind_erase_self k hw.1] at hk
        cases hk
      · rw [show entriesFind k (entriesErase id m.itemById) = entriesFind k m.itemById from
          entriesFind_erase_ne hki _] at hk
        exact h.1 k x hk
    · intro d x hd
      have key : entriesFind d m.itemByDescription = some x ∧ x.id ≠ id := by
        revert hd
        show entriesFind d (match entriesFind x0.description m.itemByDescription with
          | some y =>
            if y.id = id then entriesErase x0.description m.itemByDescription
            else m.itemByDescription
          | none => m.itemByDescription) = some x → _
        intro hd
        cases hs : entriesFind x0.description m.itemByDescription with
        | none =>
          rw [hs] at hd
          refine ⟨hd, ?_⟩
          intro hxid
          obtain ⟨hxd, hlive⟩ := h.2 d x hd
          unfold StorageManager.Live at hlive
          rw [hxid, hf] at hlive
          cases hlive
          rw [hxd, hd] at hs
          cases hs
        | some y =>
          rw [hs] at hd
          by_cases hy : y.id = id
          · simp only [hy, if_true] at hd
            by_cases hdd : d = x0.description
            · subst hdd
              rw [entriesFind_erase_self _ hw.2] at hd
              cases hd
            · rw [entriesFind_erase_ne hdd] at hd
              refine ⟨hd, ?_⟩
              intro hxid
              obtain ⟨hxd, hlive⟩ := h.2 d x hd
              unfold StorageManager.Live at hlive
              rw [hxid, hf] at hlive
              cases hlive
              exact hdd hxd.symm
          · simp only [hy, if_false] at hd
            refine ⟨hd, ?_⟩
            intro hxid
            obtain ⟨hxd, hlive⟩ := h.2 d x hd
            unfold StorageManager.Live at hlive
            rw [hxid, hf] at hlive
            cases hlive
            rw [hxd, hd] at hs
            cases hs
            exact hy hxid
      obtain ⟨hxd, hlive⟩ := h.2 d x key.1
      refine ⟨hxd, ?_⟩
      show entriesFind x.id (entriesErase id m.itemById) = some x
      rw [entriesFind_erase_ne key.2]
      exact hlive

theorem invariant_call (m : StorageManager) (op : Op) (h : m.WellFormed ∧ m.Consistent) :
    (m.call op).2.WellFormed ∧ (m.call op).2.Consistent := by
  cases op with
  | add item => exact ⟨wellFormed_addItem m item h.1, consistent_addItem m item h.2⟩
  | remove id => exact ⟨wellFormed_removeItem m id h.1, consistent_removeItem m id h.1 h.2⟩

theorem invariant_run (ops : List Op) :
    ∀ m : StorageManager, m.WellFormed ∧ m.Consistent →
      (m.run ops).WellFormed ∧ (m.run ops).Consistent := by
  induction ops with
  | nil => intro m h; exact h
  | cons op ops ih => intro m h; exact ih _ (invariant_call m op h)

theorem invariant_empty : StorageManager.empty.WellFormed ∧ StorageManager.empty.Consistent := by
  refine ⟨⟨List.Pairwise.nil, List.Pairwise.nil⟩, ?_, ?_⟩
  · intro k x h; simp [StorageManager.empty, entriesFind] at h
  · intro d x h; simp [StorageManager.empty, entriesFind] at h

theorem invariant_reached (ops : List Op) :
    (reached ops).WellFormed ∧ (reached ops).Consistent :=
  invariant_run ops _ invariant_empty

/-! ## Contract of the four operations -/

/-- C1: for every registry state and every item whose id is already in the
primary index (under any record, the same one or another one with that id),
`addItem` throws `DuplicateItemException` and leaves the whole state, hence both
indexes, as it was; `findById` for that id still returns the original record
and the secondary index is the one from before the call. -/
theorem addItem_duplicate_rejected (m : StorageManager) (item original : StoredItem)
    (h : entriesFind item.id m.itemById = some original) :
    (m.addItem item).1 =
        .error (.DuplicateItemException ("Item using id " ++ item.id ++ " already exists!")) ∧
      (m.addItem item).2 = m ∧
      (m.addItem item).2.itemById = m.itemById ∧
      (m.addItem item).2.itemByDescription = m.itemByDescription ∧
      (m.addItem item).2.findById item.id = .ok original ∧
      (m.addItem item).2.listItemsByDescription = m.listItemsByDescription := by
  rw [addItem_present m item original h]
  exact ⟨rfl, rfl, rfl, rfl, findById_of_find m item.id original h, rfl⟩

theorem addItem_duplicate_rejected_witness :
    entriesFind (StoredItem.mk "ITEM001" "Desk Lamp" "Aisle 9").id
        (reached [.add ⟨"ITEM001", "LED Light", "Aisle 3, Shelf 1"⟩]).itemById
      = some ⟨"ITEM001", "LED Light", "Aisle 3, Shelf 1"⟩ ∧
    ((reached [.add ⟨"ITEM001", "LED Light", "Aisle 3, Shelf 1"⟩]).addItem
        ⟨"ITEM001", "Desk Lamp", "Aisle 9"⟩).2.findById "ITEM001"
      = .ok ⟨"ITEM001", "LED Light", "Aisle 3, Shelf 1"⟩ ∧
    ((reached [.add ⟨"ITEM001", "LED Light", "Aisle 3, Shelf 1"⟩]).addItem
        ⟨"ITEM001", "Desk Lamp", "Aisle 9"⟩).2.itemByDescription
      = [("LED Light", ⟨"ITEM001", "LED Light", "Aisle 3, Shelf 1"⟩)] :=
  ⟨by decide,
   (addItem_duplicate_rejected (reached [.add ⟨"ITEM001", "LED Light", "Aisle 3, Shelf 1"⟩])
      ⟨"ITEM001", "Desk Lamp", "Aisle 9"⟩ ⟨"ITEM001", "LED Light", "Aisle 3, Shelf 1"⟩
      (by decide)).2.2.2.2.1,
   by decide⟩

theorem outcomes_add_distinct (items : List StoredItem) :
    ∀ m : StorageManager, (items.map (fun x => x.id)).Nodup →
      (∀ x ∈ items, entriesFind x.id m.itemById = none) →
      m.outcomes (items.map Op.add) = items.map (fun _ => Except.ok ()) ∧
      (∀ x ∈ items, entriesFind x.id (m.run (items.map Op.add)).itemById = some x) ∧
      (∀ k, (∀ x ∈ items, x.id ≠ k) →
        entriesFind k (m.run (items.map Op.add)).itemById = entriesFind k m.itemById) := by
  induction items with
  | nil =>
    intro m _ _
    exact ⟨rfl, fun x hx => absurd hx (List.not_mem_nil x), fun k _ => rfl⟩
  | cons a rest ih =>
    intro m hnd habs
    rw [List.map_cons, List.nodup_cons] at hnd
    have ha : entriesFind a.id m.itemById = none := habs a (List.mem_cons_self _ _)
    have hstep : m.call (Op.add a) =
        (.ok (), ⟨entriesAssign a.id a m.itemById,
                  entriesAssign a.description a m.itemByDescription⟩) :=
      addItem_absent m a ha
    have hrest : ∀ x ∈ rest, entriesFind x.id (m.call (Op.add a)).2.itemById = none := by
      intro x hx
      rw [hstep]
      have hne : x.id ≠ a.id := by
        intro he
        exact hnd.1 (List.mem_map.2 ⟨x, hx, he⟩)
      show entriesFind x.id (entriesAssign a.id a m.itemById) = none
      rw [entriesFind_assign_ne a hne]
      exact habs x (List.mem_cons_of_mem _ hx)
    obtain ⟨ih1, ih2, ih3⟩ := ih (m.call (Op.add a)).2 hnd.2 hrest
    refine ⟨?_, ?_, ?_⟩
    · show (m.call (Op.add a)).1 :: (m.call (Op.add a)).2.outcomes (rest.map Op.add) = _
      rw [ih1, hstep]
      rfl
    · intro x hx
      show entriesFind x.id ((m.call (Op.add a)).2.run (rest.map Op.add)).itemById = some x
      rcases List.mem_cons.1 hx with hx | hx
      · subst hx
        rw [ih3 x.id (fun y hy he => hnd.1 (List.mem_map.2 ⟨y, hy, he⟩)), hstep]
        exact entriesFind_assign_self _ _ _
      · exact ih2 x hx
    · intro k hk
      show entriesFind k ((m.call (Op.add a)).2.run (rest.map Op.add)).itemById = _
      rw [ih3 k (fun y hy => hk y (List.mem_cons_of_mem _ hy)), hstep]
      exact entriesFind_assign_ne a (fun he => hk a (List.mem_cons_self _ _) he.symm) _

/-- C2: adding items with pairwise distinct ids one after another to the empty
registry succeeds on every call, and afterwards `findById` on each of the ids
returns exactly the record added under it (descriptions may repeat). -/
theorem add_distinct_ids_then_find (items : List StoredItem)
    (hnd : (items.map (fun x => x.id)).Nodup) :
    StorageManager.empty.outcomes (items.map Op.add) = items.map (fun _ => Except.ok ()) ∧
      ∀ x ∈ items, (reached (items.map Op.add)).findById x.id = .ok x := by
  obtain ⟨h1, h2, _⟩ := outcomes_add_distinct items StorageManager.empty hnd (fun _ _ => rfl)
  exact ⟨h1, fun x hx => findById_of_find _ _ _ (h2 x hx)⟩

theorem add_distinct_ids_then_find_witness :
    ([StoredItem.mk "ITEM001" "LED Light" "Aisle 3, Shelf 1",
      StoredItem.mk "ITEM002" "LED Light" "Aisle 2, Shelf 5"].map (fun x => x.id)).Nodup ∧
    (StorageManager.empty.outcomes
        ([StoredItem.mk "ITEM001" "LED Light" "Aisle 3, Shelf 1",
          StoredItem.mk "ITEM002" "LED Light" "Aisle 2, Shelf 5"].map Op.add)
      = [StoredItem.mk "ITEM001" "LED Light" "Aisle 3, Shelf 1",
          StoredItem.mk "ITEM002" "LED Light" "Aisle 2, Shelf 5"].map (fun _ => Except.ok ()) ∧
     ∀ x ∈ [StoredItem.mk "ITEM001" "LED Light" "Aisle 3, Shelf 1",
          StoredItem.mk "ITEM002" "LED Light" "Aisle 2, Shelf 5"],
       (reached ([StoredItem.mk "ITEM001" "LED Light" "Aisle 3, Shelf 1",
          StoredItem.mk "ITEM002" "LED Light" "Aisle 2, Shelf 5"].map Op.add)).findById x.id
        = .ok x) :=
  ⟨by decide, add_distinct_ids_then_find _ (by decide)⟩

/-- C3: for every registry state and every id that is not in the primary index,
`removeItem` throws `ItemNotFoundException` and leaves the whole state, hence
both indexes, as it was: `findById` on every id and the listing by description
give what they gave before the call. -/
theorem removeItem_absent_rejected (m : StorageManager) (id : String)
    (h : entriesFind id m.itemById = none) :
    (m.removeItem id).1 =
        .error (.ItemNotFoundException ("Item using id " ++ id ++ " not found.")) ∧
      (m.removeItem id).2 = m ∧
      (m.removeItem id).2.itemById = m.itemById ∧
      (m.removeItem id).2.itemByDescription = m.itemByDescription ∧
      (∀ j, (m.removeItem id).2.findById j = m.findById j) ∧
      (m.removeItem id).2.listItemsByDescription = m.listItemsByDescription := by
  rw [removeItem_absent m id h]
  exact ⟨rfl, rfl, rfl, rfl, fun _ => rfl, rfl⟩

theorem removeItem_absent_rejected_witness :
    entriesFind "ITEM003"
        (reached [.add ⟨"ITEM001", "LED Light", "Aisle 3, Shelf 1"⟩,
          .add ⟨"ITEM002", "Fan Motor", "Aisle 2, Shelf 5"⟩]).itemById = none ∧
    ((reached [.add ⟨"ITEM001", "LED Light", "Aisle 3, Shelf 1"⟩,
          .add ⟨"ITEM002", "Fan Motor", "Aisle 2, Shelf 5"⟩]).removeItem "ITEM003").1
      = .error (.ItemNotFoundException "Item using id ITEM003 not found.") ∧
    ((reached [.add ⟨"ITEM001", "LED Light", "Aisle 3, Shelf 1"⟩,
          .add ⟨"ITEM002", "Fan Motor", "Aisle 2, Shelf 5"⟩]).removeItem "ITEM003").2.findById
        "ITEM002"
      = .ok ⟨"ITEM002", "Fan Motor", "Aisle 2, Shelf 5"⟩ :=
  ⟨by decide,
   (removeItem_absent_rejected
      (reached [.add ⟨"ITEM001", "LED Light", "Aisle 3, Shelf 1"⟩,
        .add ⟨"ITEM002", "Fan Motor", "Aisle 2, Shelf 5"⟩]) "ITEM003" (by decide)).1,
   by decide⟩

/-- C4: for every registry state (a state whose primary index is a map, with
unique ordered keys) and every id in the primary index, `removeItem` returns
without throwing and afterwards `findById` on that id throws
`ItemNotFoundException`. -/
theorem removeItem_then_find_fails (m : StorageManager) (id : String) (x : StoredItem)
    (hw : KeysAscending m.itemById) (h : entriesFind id m.itemById = some x) :
    (m.removeItem id).1 = .ok () ∧
      (m.removeItem id).2.findById id =
        .error (.ItemNotFoundException ("Item using id " ++ id ++ " not found.")) := by
  rw [removeItem_present m id x h]
  exact ⟨rfl, findById_of_none _ id (entriesFind_erase_self id hw)⟩

theorem removeItem_then_find_fails_witness :
    KeysAscending (reached [.add ⟨"ITEM001", "LED Light", "Aisle 3, Shelf 1"⟩]).itemById ∧
    entriesFind "ITEM001" (reached [.add ⟨"ITEM001", "LED Light", "Aisle 3, Shelf 1"⟩]).itemById
      = some ⟨"ITEM001", "LED Light", "Aisle 3, Shelf 1"⟩ ∧
    ((reached [.add ⟨"ITEM001", "LED Light", "Aisle 3, Shelf 1"⟩]).removeItem "ITEM001").1
        = .ok () ∧
      ((reached [.add ⟨"ITEM001", "LED Light", "Aisle 3, Shelf 1"⟩]).removeItem
            "ITEM001").2.findById "ITEM001"
        = .error (.ItemNotFoundException ("Item using id " ++ "ITEM001" ++ " not found.")) :=
  ⟨(invariant_reached _).1.1, by decide,
   removeItem_then_find_fails (reached [.add ⟨"ITEM001", "LED Light", "Aisle 3, Shelf 1"⟩])
     "ITEM001" ⟨"ITEM001", "LED Light", "Aisle 3, Shelf 1"⟩
     (invariant_reached _).1.1 (by decide)⟩

theorem entry_filed_under_description (m : StorageManager) (hw : m.WellFormed)
    (hc : m.Consistent) :
    ∀ p ∈ m.itemByDescription, p.2.description = p.1 ∧ m.Live p.2 := by
  intro p hp
  exact hc.2 p.1 p.2 (entriesFind_of_mem hw.2 hp)

theorem listing_pairwise (m : StorageManager) (hw : m.WellFormed) (hc : m.Consistent) :
    m.listItemsByDescription.Pairwise (fun a b => a.1 < b.1) := by
  unfold StorageManager.listItemsByDescription
  rw [List.pairwise_map]
  refine List.Pairwise.imp_of_mem ?_ hw.2
  intro a b ha hb hab
  show a.2.description < b.2.description
  rw [(entry_filed_under_description m hw hc a ha).1,
    (entry_filed_under_description m hw hc b hb).1]
  exact hab

/-- C6: in every state reached from the empty registry by calls of `addItem`
and `removeItem`, the listing by description is strictly ascending in the
description, for the lexicographic order on the characters of the strings, so
no description occurs twice; the order is case-sensitive: "Zebra" comes before
"apple". -/
theorem listItemsByDescription_strictly_ascending (ops : List Op) :
    (reached ops).listItemsByDescription.Pairwise (fun a b => a.1 < b.1) ∧
      (reached ops).listItemsByDescription.Pairwise
        (fun a b => strLess a.1 b.1 = true ∧ a.1.toList < b.1.toList) ∧
      ((reached ops).listItemsByDescription.map Prod.fst).Nodup ∧
      (reached [.add ⟨"ITEM001", "apple", "Aisle 1"⟩,
          .add ⟨"ITEM002", "Zebra", "Aisle 2"⟩]).listItemsByDescription
        = [("Zebra", "Aisle 2"), ("apple", "Aisle 1")] := by
  have hinv := invariant_reached ops
  have hp := listing_pairwise (reached ops) hinv.1 hinv.2
  refine ⟨hp, ?_, ?_, by decide⟩
  · refine hp.imp ?_
    intro a b hab
    exact ⟨(strLess_iff a.1 b.1).2 hab, String.lt_iff_toList_lt.1 hab⟩
  · unfold List.Nodup
    rw [List.pairwise_map]
    exact hp.imp (fun hab => ne_of_lt hab)

theorem entriesAssign_perm {k : String} (v : StoredItem) :
    ∀ {l : List (String × StoredItem)}, entriesFind k l = none →
      (entriesAssign k v l).Perm ((k, v) :: l)
  | [], _ => List.Perm.refl _
  | (k', v') :: rest, h => by
    unfold entriesFind at h
    split at h
    · cases h
    · rename_i hk
      have hk' : ¬ k = k' := fun he => hk he.symm
      unfold entriesAssign
      split
      · exact List.Perm.refl _
      · exact ((entriesAssign_perm v h).cons (k', v')).trans (List.Perm.swap _ _ _)

theorem run_add_secondary_perm (items : List StoredItem) :
    ∀ m : StorageManager, (items.map (fun x => x.id)).Nodup →
      (∀ x ∈ items, entriesFind x.id m.itemById = none) →
      (items.map (fun x => x.description)).Nodup →
      (∀ x ∈ items, entriesFind x.description m.itemByDescription = none) →
      (m.run (items.map Op.add)).itemByDescription.Perm
        (items.map (fun x => (x.description, x)) ++ m.itemByDescription) := by
  induction items with
  | nil => intro m _ _ _ _; exact List.Perm.refl _
  | cons a rest ih =>
    intro m hid habs hds hdabs
    rw [List.map_cons, List.nodup_cons] at hid hds
    have ha : entriesFind a.id m.itemById = none := habs a (List.mem_cons_self _ _)
    have had : entriesFind a.description m.itemByDescription = none :=
      hdabs a (List.mem_cons_self _ _)
    have hstep : m.call (Op.add a) =
        (.ok (), ⟨entriesAssign a.id a m.itemById,
                  entriesAssign a.description a m.itemByDescription⟩) :=
      addItem_absent m a ha
    have h1 : ∀ x ∈ rest, entriesFind x.id (m.call (Op.add a)).2.itemById = none := by
      intro x hx
      rw [hstep]
      have hne : x.id ≠ a.id := fun he => hid.1 (List.mem_map.2 ⟨x, hx, he⟩)
      show entriesFind x.id (entriesAssign a.id a m.itemById) = none
      rw [entriesFind_assign_ne a hne]
      exact habs x (List.mem_cons_of_mem _ hx)
    have h2 : ∀ x ∈ rest,
        entriesFind x.description (m.call (Op.add a)).2.itemByDescription = none := by
      intro x hx
      rw [hstep]
      have hne : x.description ≠ a.description :=
        fun he => hds.1 (List.mem_map.2 ⟨x, hx, he⟩)
      show entriesFind x.description (entriesAssign a.description a m.itemByDescription) = none
      rw [entriesFind_assign_ne a hne]
      exact hdabs x (List.mem_cons_of_mem _ hx)
    have hrec := ih (m.call (Op.add a)).2 hid.2 h1 hds.2 h2
    show ((m.call (Op.add a)).2.run (rest.map Op.add)).itemByDescription.Perm _
    refine hrec.trans ?_
    rw [hstep]
    show (rest.map (fun x => (x.description, x)) ++
        entriesAssign a.description a m.itemByDescription).Perm
      ((a.description, a) :: (rest.map (fun x => (x.description, x)) ++ m.itemByDescription))
    exact ((entriesAssign_perm a had).append_left _).trans List.perm_middle

theorem listing_of_added (items : List StoredItem)
    (hid : (items.map (fun x => x.id)).Nodup)
    (hds : (items.map (fun x => x.description)).Nodup) :
    (reached (items.map Op.add)).listItemsByDescription.Perm
      (items.map (fun x => (x.description, x.location))) := by
  have h := run_add_secondary_perm items StorageManager.empty hid (fun _ _ => rfl) hds
    (fun _ _ => rfl)
  have h' := h.map (fun pair : String × StoredItem => (pair.2.getDescription, pair.2.getLocation))
  rw [show StorageManager.empty.itemByDescription = [] from rfl, List.append_nil,
    List.map_map] at h'
  exact h'

/-- C7: for items with pairwise distinct ids and pairwise distinct
descriptions, the listing after adding them to the empty registry does not
depend on the order of the calls: it has exactly one (description, location)
pair per added item and is strictly ascending in the description. In the run
of the demonstration (two items added, a rejected second `addItem` of ITEM001
and a rejected `removeItem` of ITEM003) the listing is Fan Motor, then LED
Light. -/
theorem listing_independent_of_insertion_order (items items' : List StoredItem)
    (hperm : items.Perm items')
    (hid : (items.map (fun x => x.id)).Nodup)
    (hds : (items.map (fun x => x.description)).Nodup) :
    (reached (items.map Op.add)).listItemsByDescription
        = (reached (items'.map Op.add)).listItemsByDescription ∧
      (reached (items.map Op.add)).listItemsByDescription.Perm
        (items.map (fun x => (x.description, x.location))) ∧
      (reached (items.map Op.add)).listItemsByDescription.Pairwise (fun a b => a.1 < b.1) ∧
      (StorageManager.empty.outcomes
          [.add ⟨"ITEM001", "LED Light", "Aisle 3, Shelf 1"⟩,
           .add ⟨"ITEM002", "Fan Motor", "Aisle 2, Shelf 5"⟩,
           .add ⟨"ITEM001", "LED Light", "Aisle 3, Shelf 1"⟩,
           .remove "ITEM003"]
        = [.ok (), .ok (),
           .error (.DuplicateItemException "Item using id ITEM001 already exists!"),
           .error (.ItemNotFoundException "Item using id ITEM003 not found.")]) ∧
      (reached [.add ⟨"ITEM001", "LED Light", "Aisle 3, Shelf 1"⟩,
           .add ⟨"ITEM002", "Fan Motor", "Aisle 2, Shelf 5"⟩,
           .add ⟨"ITEM001", "LED Light", "Aisle 3, Shelf 1"⟩,
           .remove "ITEM003"]).listItemsByDescription
        = [("Fan Motor", "Aisle 2, Shelf 5"), ("LED Light", "Aisle 3, Shelf 1")] := by
  have hid' : (items'.map (fun x => x.id)).Nodup := (hperm.map _).nodup_iff.1 hid
  have hds' : (items'.map (fun x => x.description)).Nodup := (hperm.map _).nodup_iff.1 hds
  have h1 := listing_of_added items hid hds
  have h2 := listing_of_added items' hid' hds'
  have hs1 := listing_pairwise _ (invariant_reached (items.map Op.add)).1
    (invariant_reached (items.map Op.add)).2
  have hs2 := listing_pairwise _ (invariant_reached (items'.map Op.add)).1
    (invariant_reached (items'.map Op.add)).2
  refine ⟨?_, h1, hs1, by decide, by decide⟩
  haveI : IsAntisymm (String × String) (fun a b => a.1 < b.1) :=
    ⟨fun a b hab hba => absurd hab (lt_asymm hba)⟩
  exact List.eq_of_perm_of_sorted
    (h1.trans ((hperm.map _).trans h2.symm)) hs1 hs2

theorem listing_independent_of_insertion_order_witness :
    [StoredItem.mk "ITEM001" "LED Light" "Aisle 3, Shelf 1",
        StoredItem.mk "ITEM002" "Fan Motor" "Aisle 2, Shelf 5"].Perm
      [StoredItem.mk "ITEM002" "Fan Motor" "Aisle 2, Shelf 5",
        StoredItem.mk "ITEM001" "LED Light" "Aisle 3, Shelf 1"] ∧
    (reached ([StoredItem.mk "ITEM001" "LED Light" "Aisle 3, Shelf 1",
        StoredItem.mk "ITEM002" "Fan Motor" "Aisle 2, Shelf 5"].map Op.add)).listItemsByDescription
      = (reached ([StoredItem.mk "ITEM002" "Fan Motor" "Aisle 2, Shelf 5",
        StoredItem.mk "ITEM001" "LED Light" "Aisle 3, Shelf 1"].map
          Op.add)).listItemsByDescription :=
  ⟨List.Perm.swap _ _ _,
   (listing_independent_of_insertion_order
      [StoredItem.mk "ITEM001" "LED Light" "Aisle 3, Shelf 1",
        StoredItem.mk "ITEM002" "Fan Motor" "Aisle 2, Shelf 5"]
      [StoredItem.mk "ITEM002" "Fan Motor" "Aisle 2, Shelf 5",
        StoredItem.mk "ITEM001" "LED Light" "Aisle 3, Shelf 1"]
      (List.Perm.swap _ _ _) (by decide) (by decide)).1⟩

/-! ## Colliding descriptions -/

/-- C8: in every reachable state, `addItem` of an item whose id is not in the
primary index returns without throwing and files the item in both indexes; the
secondary index entry of its description is the new item, also when a live
item already held that description: that older item is still returned by
`findById` under its own id, the listing shows the description with the new
item's location (and with no other location), and the older item is no longer
the record of any secondary index entry. -/
theorem addItem_last_write_wins (ops : List Op) (item : StoredItem)
    (h : entriesFind item.id (reached ops).itemById = none) :
    ((reached ops).addItem item).1 = .ok () ∧
      ((reached ops).addItem item).2.findById item.id = .ok item ∧
      entriesFind item.description ((reached ops).addItem item).2.itemByDescription
        = some item ∧
      ∀ old, (reached ops).Live old → old.description = item.description →
        ((reached ops).addItem item).2.findById old.id = .ok old ∧
        (item.description, item.location)
          ∈ ((reached ops).addItem item).2.listItemsByDescription ∧
        (∀ p ∈ ((reached ops).addItem item).2.listItemsByDescription,
          p.1 = item.description → p.2 = item.location) ∧
        (∀ e ∈ ((reached ops).addItem item).2.itemByDescription, e.2 ≠ old) := by
  have hinv := invariant_reached ops
  have hw := wellFormed_addItem (reached ops) item hinv.1
  have hc := consistent_addItem (reached ops) item hinv.2
  have hslot : entriesFind item.description ((reached ops).addItem item).2.itemByDescription
      = some item := by
    rw [addItem_absent _ item h]
    exact entriesFind_assign_self _ _ _
  refine ⟨by rw [addItem_absent _ item h], ?_, hslot, ?_⟩
  · rw [addItem_absent _ item h]
    exact findById_of_find _ _ _ (entriesFind_assign_self _ _ _)
  · intro old hlive hdesc
    have hne : old.id ≠ item.id := by
      intro he
      unfold StorageManager.Live at hlive
      rw [he, h] at hlive
      cases hlive
    refine ⟨?_, ?_, ?_, ?_⟩
    · rw [addItem_absent _ item h]
      apply findById_of_find
      show entriesFind old.id (entriesAssign item.id item (reached ops).itemById) = some old
      rw [entriesFind_assign_ne item hne]
      exact hlive
    · exact List.mem_map.2 ⟨(item.description, item), entriesFind_mem hslot, rfl⟩
    · intro p hp hp1
      obtain ⟨e, he, rfl⟩ := List.mem_map.1 hp
      have hkey := (entry_filed_under_description _ hw hc e he).1
      have hfind := entriesFind_of_mem hw.2 (show (e.1, e.2) ∈ _ from he)
      have he1 : e.1 = item.description := hkey.symm.trans hp1
      rw [he1, hslot] at hfind
      cases hfind
      rfl
    · intro e he heq
      have hkey := (entry_filed_under_description _ hw hc e he).1
      have hfind := entriesFind_of_mem hw.2 (show (e.1, e.2) ∈ _ from he)
      rw [← hkey, heq, hdesc, hslot] at hfind
      cases hfind
      exact hne rfl

theorem addItem_last_write_wins_witness :
    entriesFind (StoredItem.mk "ITEM002" "LED Light" "Aisle 7").id
        (reached [.add ⟨"ITEM001", "LED Light", "Aisle 3, Shelf 1"⟩]).itemById = none ∧
    (reached [.add ⟨"ITEM001", "LED Light", "Aisle 3, Shelf 1"⟩]).Live
        ⟨"ITEM001", "LED Light", "Aisle 3, Shelf 1"⟩ ∧
    ((reached [.add ⟨"ITEM001", "LED Light", "Aisle 3, Shelf 1"⟩]).addItem
        ⟨"ITEM002", "LED Light", "Aisle 7"⟩).2.findById "ITEM001"
      = .ok ⟨"ITEM001", "LED Light", "Aisle 3, Shelf 1"⟩ ∧
    ((reached [.add ⟨"ITEM001", "LED Light", "Aisle 3, Shelf 1"⟩]).addItem
        ⟨"ITEM002", "LED Light", "Aisle 7"⟩).2.listItemsByDescription
      = [("LED Light", "Aisle 7")] :=
  ⟨by decide, by unfold StorageManager.Live; decide,
   ((addItem_last_write_wins [.add ⟨"ITEM001", "LED Light", "Aisle 3, Shelf 1"⟩]
      ⟨"ITEM002", "LED Light", "Aisle 7"⟩ (by decide)).2.2.2
        ⟨"ITEM001", "LED Light", "Aisle 3, Shelf 1"⟩
        (by unfold StorageManager.Live; decide) rfl).1,
   by decide⟩

/-- C9: in every reachable state, `removeItem` of an id stored with record `x`
erases the secondary index entry of the description of `x` exactly when that
entry is `x` itself, and otherwise leaves the secondary index identical; the
test of the code, equality of the entry's id with the removed id, holds
exactly when the entry is `x`. When the entry is another item `y` (one that
took the description over), `y` stays in the listing. -/
theorem removeItem_secondary_guard (ops : List Op) (id : String) (x : StoredItem)
    (h : entriesFind id (reached ops).itemById = some x) :
    (entriesFind x.description (reached ops).itemByDescription = some x →
        ((reached ops).removeItem id).2.itemByDescription
          = entriesErase x.description (reached ops).itemByDescription ∧
        entriesFind x.description ((reached ops).removeItem id).2.itemByDescription = none) ∧
      (entriesFind x.description (reached ops).itemByDescription ≠ some x →
        ((reached ops).removeItem id).2.itemByDescription
          = (reached ops).itemByDescription) ∧
      (∀ y, entriesFind x.description (reached ops).itemByDescription = some y →
        (y.id = id ↔ y = x)) ∧
      (∀ y, y.id ≠ id →
        entriesFind x.description (reached ops).itemByDescription = some y →
        entriesFind x.description ((reached ops).removeItem id).2.itemByDescription = some y ∧
        (y.description, y.location)
          ∈ ((reached ops).removeItem id).2.listItemsByDescription) := by
  have hinv := invariant_reached ops
  have hxid : x.id = id := hinv.2.1 id x h
  have hguard : ∀ y, entriesFind x.description (reached ops).itemByDescription = some y →
      (y.id = id ↔ y = x) := by
    intro y hy
    constructor
    · intro hyid
      have hlive := (hinv.2.2 _ y hy).2
      unfold StorageManager.Live at hlive
      rw [hyid, h] at hlive
      cases hlive
      rfl
    · intro he
      rw [he]
      exact hxid
  have hsec : ((reached ops).removeItem id).2.itemByDescription =
      match entriesFind x.description (reached ops).itemByDescription with
      | some y =>
        if y.id = id then entriesErase x.description (reached ops).itemByDescription
        else (reached ops).itemByDescription
      | none => (reached ops).itemByDescription := by
    rw [removeItem_present _ id x h]
  have hkeep : entriesFind x.description (reached ops).itemByDescription ≠ some x →
      ((reached ops).removeItem id).2.itemByDescription = (reached ops).itemByDescription := by
    intro hne
    rw [hsec]
    cases hs : entriesFind x.description (reached ops).itemByDescription with
    | none => rfl
    | some y =>
      have hy : ¬ y.id = id := by
        intro hyid
        apply hne
        rw [hs, (hguard y hs).1 hyid]
      simp only [hy, if_false]
  refine ⟨?_, hkeep, hguard, ?_⟩
  · intro hs
    have herase : ((reached ops).removeItem id).2.itemByDescription
        = entriesErase x.description (reached ops).itemByDescription := by
      rw [hsec, hs]
      simp only [hxid, if_true]
    refine ⟨herase, ?_⟩
    rw [herase]
    exact entriesFind_erase_self _ hinv.1.2
  · intro y hyid hy
    have hne : entriesFind x.description (reached ops).itemByDescription ≠ some x := by
      rw [hy]
      intro he
      cases he
      exact hyid hxid
    have hsame := hkeep hne
    refine ⟨by rw [hsame]; exact hy, ?_⟩
    unfold StorageManager.listItemsByDescription
    rw [hsame]
    exact List.mem_map.2 ⟨(x.description, y), entriesFind_mem hy, rfl⟩

theorem removeItem_secondary_guard_witness :
    entriesFind "ITEM001"
        (reached [.add ⟨"ITEM001", "LED Light", "Aisle 3, Shelf 1"⟩,
          .add ⟨"ITEM002", "LED Light", "Aisle 7"⟩]).itemById
      = some ⟨"ITEM001", "LED Light", "Aisle 3, Shelf 1"⟩ ∧
    ((reached [.add ⟨"ITEM001", "LED Light", "Aisle 3, Shelf 1"⟩,
          .add ⟨"ITEM002", "LED Light", "Aisle 7"⟩]).removeItem "ITEM001").2.itemByDescription
      = (reached [.add ⟨"ITEM001", "LED Light", "Aisle 3, Shelf 1"⟩,
          .add ⟨"ITEM002", "LED Light", "Aisle 7"⟩]).itemByDescription ∧
    ((reached [.add ⟨"ITEM001", "LED Light", "Aisle 3, Shelf 1"⟩,
          .add ⟨"ITEM002", "LED Light", "Aisle 7"⟩]).removeItem
            "ITEM001").2.listItemsByDescription
      = [("LED Light", "Aisle 7")] :=
  ⟨by decide,
   (removeItem_secondary_guard
      [.add ⟨"ITEM001", "LED Light", "Aisle 3, Shelf 1"⟩, .add ⟨"ITEM002", "LED Light", "Aisle 7"⟩]
      "ITEM001" ⟨"ITEM001", "LED Light", "Aisle 3, Shelf 1"⟩ (by decide)).2.1 (by decide),
   by decide⟩

/-! ## Descriptions of live items and the secondary index -/

/-- C10, as stated, fails: after two items with the same description are added
and the second one is removed, the first item is live, it is the only live
item, and the secondary index has no entry for its description; the listing is
empty. -/
theorem secondary_entry_missing_after_remove :
    (reached [.add ⟨"ITEM001", "LED Light", "Aisle 3, Shelf 1"⟩,
        .add ⟨"ITEM002", "LED Light", "Aisle 7"⟩, .remove "ITEM002"]).Live
        ⟨"ITEM001", "LED Light", "Aisle 3, Shelf 1"⟩ ∧
      (∀ y, (reached [.add ⟨"ITEM001", "LED Light", "Aisle 3, Shelf 1"⟩,
        .add ⟨"ITEM002", "LED Light", "Aisle 7"⟩, .remove "ITEM002"]).Live y →
          y = ⟨"ITEM001", "LED Light", "Aisle 3, Shelf 1"⟩) ∧
      entriesFind (StoredItem.mk "ITEM001" "LED Light" "Aisle 3, Shelf 1").description
        (reached [.add ⟨"ITEM001", "LED Light", "Aisle 3, Shelf 1"⟩,
          .add ⟨"ITEM002", "LED Light", "Aisle 7"⟩, .remove "ITEM002"]).itemByDescription
        = none ∧
      (reached [.add ⟨"ITEM001", "LED Light", "Aisle 3, Shelf 1"⟩,
        .add ⟨"ITEM002", "LED Light", "Aisle 7"⟩, .remove "ITEM002"]).listItemsByDescription
        = [] := by
  have hstate : reached [.add ⟨"ITEM001", "LED Light", "Aisle 3, Shelf 1"⟩,
        .add ⟨"ITEM002", "LED Light", "Aisle 7"⟩, .remove "ITEM002"]
      = ⟨[("ITEM001", ⟨"ITEM001", "LED Light", "Aisle 3, Shelf 1"⟩)], []⟩ := by decide
  rw [hstate]
  refine ⟨by unfold StorageManager.Live; decide, ?_, rfl, rfl⟩
  intro y hy
  unfold StorageManager.Live at hy
  simp only [entriesFind] at hy
  split at hy
  · cases hy; rfl
  · cases hy

/-! ## Last write wins -/

/-- C11, as stated, fails: after three items with the same description are
added and the last one is removed, two live items share the description and
the secondary index holds neither of them (it has no entry for the
description). -/
theorem shared_description_without_entry :
    (reached [.add ⟨"ITEM001", "LED Light", "Aisle 1"⟩, .add ⟨"ITEM002", "LED Light", "Aisle 2"⟩,
        .add ⟨"ITEM003", "LED Light", "Aisle 3"⟩, .remove "ITEM003"]).Live
        ⟨"ITEM001", "LED Light", "Aisle 1"⟩ ∧
      (reached [.add ⟨"ITEM001", "LED Light", "Aisle 1"⟩, .add ⟨"ITEM002", "LED Light", "Aisle 2"⟩,
        .add ⟨"ITEM003", "LED Light", "Aisle 3"⟩, .remove "ITEM003"]).Live
        ⟨"ITEM002", "LED Light", "Aisle 2"⟩ ∧
      entriesFind "LED Light"
        (reached [.add ⟨"ITEM001", "LED Light", "Aisle 1"⟩,
          .add ⟨"ITEM002", "LED Light", "Aisle 2"⟩,
          .add ⟨"ITEM003", "LED Light", "Aisle 3"⟩, .remove "ITEM003"]).itemByDescription
        = none ∧
      (reached [.add ⟨"ITEM001", "LED Light", "Aisle 1"⟩, .add ⟨"ITEM002", "LED Light", "Aisle 2"⟩,
        .add ⟨"ITEM003", "LED Light", "Aisle 3"⟩, .remove "ITEM003"]).itemByDescription
        = [] := by
  refine ⟨?_, ?_, by decide, by decide⟩
  · unfold StorageManager.Live; decide
  · unfold StorageManager.Live; decide

theorem head_filter_filter (P Q : StoredItem → Bool) (e : StoredItem) (hQ : Q e = true) :
    ∀ l : List StoredItem, (l.filter P).head? = some e →
      ((l.filter Q).filter P).head? = some e
  | [], h => by simp at h
  | a :: rest, h => by
    by_cases hPa : P a = true
    · rw [List.filter_cons_of_pos hPa] at h
      simp only [List.head?_cons, Option.some.injEq] at h
      subst h
      rw [List.filter_cons_of_pos hQ, List.filter_cons_of_pos hPa]
      rfl
    · rw [List.filter_cons_of_neg hPa] at h
      by_cases hQa : Q a = true
      · rw [List.filter_cons_of_pos hQa, List.filter_cons_of_neg hPa]
        exact head_filter_filter P Q e hQ rest h
      · rw [List.filter_cons_of_neg hQa]
        exact head_filter_filter P Q e hQ rest h

theorem entriesFind_of_erase {d k : String} {e : StoredItem} :
    ∀ {l : List (String × StoredItem)}, KeysAscending l →
      entriesFind d (entriesErase k l) = some e → entriesFind d l = some e := by
  intro l hl h
  by_cases hdk : d = k
  · subst hdk
    rw [entriesFind_erase_self d hl] at h
    cases h
  · rw [entriesFind_erase_ne hdk] at h
    exact h

theorem live_after_removeItem (m : StorageManager) (id : String) (x : StoredItem)
    (hw : m.WellFormed) : (m.removeItem id).2.Live x ↔ m.Live x ∧ x.id ≠ id := by
  cases hf : entriesFind id m.itemById with
  | none =>
    rw [removeItem_absent m id hf]
    constructor
    · intro hx
      refine ⟨hx, ?_⟩
      intro he
      unfold StorageManager.Live at hx
      rw [he, hf] at hx
      cases hx
    · intro hx
      exact hx.1
  | some x0 =>
    rw [removeItem_present m id x0 hf]
    show entriesFind x.id (entriesErase id m.itemById) = some x ↔ _
    constructor
    · intro hx
      have hne : x.id ≠ id := by
        intro he
        rw [he, entriesFind_erase_self id hw.1] at hx
        cases hx
      rw [entriesFind_erase_ne hne] at hx
      exact ⟨hx, hne⟩
    · intro hx
      rw [entriesFind_erase_ne hx.2]
      exact hx.1

theorem slot_after_removeItem (m : StorageManager) (id d : String) (e : StoredItem)
    (hw : m.WellFormed)
    (h : entriesFind d (m.removeItem id).2.itemByDescription = some e) :
    entriesFind d m.itemByDescription = some e := by
  cases hf : entriesFind id m.itemById with
  | none =>
    rw [removeItem_absent m id hf] at h
    exact h
  | some x0 =>
    rw [removeItem_present m id x0 hf] at h
    have h' : entriesFind d (match entriesFind x0.description m.itemByDescription with
        | some y =>
          if y.id = id then entriesErase x0.description m.itemByDescription
          else m.itemByDescription
        | none => m.itemByDescription) = some e := h
    split at h'
    · split at h'
      · exact entriesFind_of_erase hw.2 h'
      · exact h'
    · exact h'

theorem recency_addItem (m : StorageManager) (order : List StoredItem) (item : StoredItem)
    (h : m.RecencyOrdered order) :
    (m.addItem item).2.RecencyOrdered
      (match (m.addItem item).1 with
        | .ok _ => item :: order
        | .error _ => order) := by
  cases hf : entriesFind item.id m.itemById with
  | some x =>
    rw [addItem_present m item x hf]
    exact h
  | none =>
    rw [addItem_absent m item hf]
    show StorageManager.RecencyOrdered _ (item :: order)
    constructor
    · intro x
      show x ∈ item :: order ↔
        entriesFind x.id (entriesAssign item.id item m.itemById) = some x
      by_cases hxi : x.id = item.id
      · rw [hxi, entriesFind_assign_self]
        constructor
        · intro hx
          rcases List.mem_cons.1 hx with hx | hx
          · rw [hx]
          · have hlive := (h.1 x).1 hx
            unfold StorageManager.Live at hlive
            rw [hxi, hf] at hlive
            cases hlive
        · intro hx
          cases hx
          exact List.mem_cons_self _ _
      · rw [entriesFind_assign_ne item hxi]
        constructor
        · intro hx
          rcases List.mem_cons.1 hx with hx | hx
          · exact absurd (by rw [hx]) hxi
          · exact (h.1 x).1 hx
        · intro hx
          exact List.mem_cons_of_mem _ ((h.1 x).2 hx)
    · intro d e hd
      have hd' : entriesFind d (entriesAssign item.description item m.itemByDescription)
          = some e := hd
      by_cases hdi : d = item.description
      · subst hdi
        rw [entriesFind_assign_self] at hd'
        cases hd'
        rw [List.filter_cons_of_pos (by simp)]
        rfl
      · rw [entriesFind_assign_ne item hdi] at hd'
        rw [List.filter_cons_of_neg (by simpa using fun he => hdi he.symm)]
        exact h.2 d e hd'

theorem recency_removeItem (m : StorageManager) (order : List StoredItem) (id : String)
    (hw : m.WellFormed) (hc : m.Consistent) (h : m.RecencyOrdered order) :
    (m.removeItem id).2.RecencyOrdered (order.filter (fun x => x.id ≠ id)) := by
  constructor
  · intro x
    rw [live_after_removeItem m id x hw, List.mem_filter, h.1 x]
    simp
  · intro d e hd
    have hlive := ((consistent_removeItem m id hw hc).2 d e hd).2
    have hne := ((live_after_removeItem m id e hw).1 hlive).2
    have hslot := slot_after_removeItem m id d e hw hd
    exact head_filter_filter _ _ e (by simpa using hne) order (h.2 d e hslot)

theorem recency_run (ops : List Op) :
    ∀ (m : StorageManager) (order : List StoredItem), m.WellFormed ∧ m.Consistent →
      m.RecencyOrdered order → (m.run ops).RecencyOrdered (m.liveByRecency order ops) := by
  induction ops with
  | nil => intro m order _ h; exact h
  | cons op ops ih =>
    intro m order hinv h
    cases op with
    | add item =>
      exact ih _ _ (invariant_call m (.add item) hinv) (recency_addItem m order item h)
    | remove id =>
      exact ih _ _ (invariant_call m (.remove id) hinv)
        (recency_removeItem m order id hinv.1 hinv.2 h)

theorem recency_empty : StorageManager.empty.RecencyOrdered [] := by
  constructor
  · intro x
    constructor
    · intro hx; cases hx
    · intro hx
      unfold StorageManager.Live at hx
      simp [StorageManager.empty, entriesFind] at hx
  · intro d e hd
    simp [StorageManager.empty, entriesFind] at hd

theorem slot_after_removeItem_iff (m : StorageManager) (id d : String) (e : StoredItem)
    (hw : m.WellFormed) (hc : m.Consistent) :
    entriesFind d (m.removeItem id).2.itemByDescription = some e ↔
      (entriesFind d m.itemByDescription = some e ∧ e.id ≠ id) := by
  constructor
  · intro hd
    have hlive := ((consistent_removeItem m id hw hc).2 d e hd).2
    exact ⟨slot_after_removeItem m id d e hw hd,
      ((live_after_removeItem m id e hw).1 hlive).2⟩
  · rintro ⟨hd, hne⟩
    cases hf : entriesFind id m.itemById with
    | none =>
      rw [removeItem_absent m id hf]
      exact hd
    | some x0 =>
      rw [removeItem_present m id x0 hf]
      show entriesFind d (match entriesFind x0.description m.itemByDescription with
        | some y =>
          if y.id = id then entriesErase x0.description m.itemByDescription
          else m.itemByDescription
        | none => m.itemByDescription) = some e
      split
      · rename_i y hy
        split
        · rename_i hyid
          have hdd : d ≠ x0.description := by
            intro he
            rw [he, hy] at hd
            cases hd
            exact hne hyid
          rw [entriesFind_erase_ne hdd]
          exact hd
        · exact hd
      · exact hd

theorem live_after_addItem (m : StorageManager) (item x : StoredItem)
    (hf : entriesFind item.id m.itemById = none) :
    (m.addItem item).2.Live x ↔ (x = item ∨ m.Live x) := by
  rw [addItem_absent m item hf]
  show entriesFind x.id (entriesAssign item.id item m.itemById) = some x ↔ _
  by_cases hxi : x.id = item.id
  · rw [hxi, entriesFind_assign_self]
    constructor
    · intro hx
      cases hx
      exact Or.inl rfl
    · intro hx
      rcases hx with hx | hx
      · rw [hx]
      · unfold StorageManager.Live at hx
        rw [hxi, hf] at hx
        cases hx
  · rw [entriesFind_assign_ne item hxi]
    constructor
    · intro hx
      exact Or.inr hx
    · intro hx
      rcases hx with hx | hx
      · exact absurd (by rw [hx]) hxi
      · exact hx

theorem slotTracks_addItem (m : StorageManager) (d : String) (last : Option StoredItem)
    (item : StoredItem) (h : m.SlotTracks d last) :
    (m.addItem item).2.SlotTracks d
      (match (m.addItem item).1 with
        | .ok _ => if item.description = d then some item else last
        | .error _ => last) := by
  cases hf : entriesFind item.id m.itemById with
  | some x =>
    rw [addItem_present m item x hf]
    exact h
  | none =>
    have hlive := fun x => live_after_addItem m item x hf
    have hsec : (m.addItem item).2.itemByDescription
        = entriesAssign item.description item m.itemByDescription := by
      rw [addItem_absent m item hf]
    have hout : (m.addItem item).1 = .ok () := by
      rw [addItem_absent m item hf]
    rw [hout]
    show StorageManager.SlotTracks _ d (if item.description = d then some item else last)
    by_cases hd : item.description = d
    · rw [if_pos hd]
      constructor
      · intro e he
        cases he
        exact hd
      · intro e
        rw [hsec, ← hd, entriesFind_assign_self]
        constructor
        · intro he
          exact ⟨he, by cases he; exact (hlive item).2 (Or.inl rfl)⟩
        · intro he
          exact he.1
    · rw [if_neg hd]
      refine ⟨h.1, ?_⟩
      intro e
      rw [hsec, entriesFind_assign_ne item (fun he => hd he.symm), h.2 e]
      constructor
      · rintro ⟨he, hl⟩
        exact ⟨he, (hlive e).2 (Or.inr hl)⟩
      · rintro ⟨he, hl⟩
        refine ⟨he, ?_⟩
        rcases (hlive e).1 hl with hl | hl
        · exact absurd (hl ▸ h.1 e he) hd
        · exact hl

theorem slotTracks_removeItem (m : StorageManager) (d : String) (last : Option StoredItem)
    (id : String) (hw : m.WellFormed) (hc : m.Consistent) (h : m.SlotTracks d last) :
    (m.removeItem id).2.SlotTracks d last := by
  refine ⟨h.1, ?_⟩
  intro e
  rw [slot_after_removeItem_iff m id d e hw hc, live_after_removeItem m id e hw, h.2 e]
  exact and_assoc

theorem slotTracks_run (d : String) (ops : List Op) :
    ∀ (m : StorageManager) (last : Option StoredItem), m.WellFormed ∧ m.Consistent →
      m.SlotTracks d last → (m.run ops).SlotTracks d (m.lastAdded d last ops) := by
  induction ops with
  | nil => intro m last _ h; exact h
  | cons op ops ih =>
    intro m last hinv h
    cases op with
    | add item =>
      exact ih _ _ (invariant_call m (.add item) hinv) (slotTracks_addItem m d last item h)
    | remove id =>
      exact ih _ _ (invariant_call m (.remove id) hinv)
        (slotTracks_removeItem m d last id hinv.1 hinv.2 h)

theorem slotTracks_reached (d : String) (ops : List Op) :
    (reached ops).SlotTracks d (StorageManager.empty.lastAdded d none ops) := by
  refine slotTracks_run d ops StorageManager.empty none invariant_empty ⟨?_, ?_⟩
  · intro e he
    cases he
  · intro e
    constructor
    · intro he
      simp [StorageManager.empty, entriesFind] at he
    · intro he
      cases he.1

/-- C10, amended: in every reachable state and for every description, the
secondary index has an entry for the description exactly when the item last
added under it is live, and then the entry is that item; so every entry
points to a live item that holds the description and is listed. When exactly
one live item holds a description, the entry is that item exactly when it is
the item last added under the description (and then it is listed); otherwise
there is no entry. -/
theorem secondary_entry_iff_last_added_live (ops : List Op) (d : String) :
    (∀ e, entriesFind d (reached ops).itemByDescription = some e ↔
        (StorageManager.empty.lastAdded d none ops = some e ∧ (reached ops).Live e)) ∧
      (∀ e, entriesFind d (reached ops).itemByDescription = some e →
        e.description = d ∧ (reached ops).Live e ∧
        (e.description, e.location) ∈ (reached ops).listItemsByDescription) ∧
      (∀ x, (reached ops).Live x → x.description = d →
        (∀ y, (reached ops).Live y → y.description = d → y = x) →
        (entriesFind d (reached ops).itemByDescription = some x ↔
          StorageManager.empty.lastAdded d none ops = some x) ∧
        (entriesFind d (reached ops).itemByDescription = none ↔
          StorageManager.empty.lastAdded d none ops ≠ some x) ∧
        (StorageManager.empty.lastAdded d none ops = some x →
          (x.description, x.location) ∈ (reached ops).listItemsByDescription)) := by
  have hinv := invariant_reached ops
  have htrack := slotTracks_reached d ops
  refine ⟨htrack.2, ?_, ?_⟩
  · intro e he
    obtain ⟨hd, hlive⟩ := hinv.2.2 d e he
    exact ⟨hd, hlive, List.mem_map.2 ⟨(d, e), entriesFind_mem he, rfl⟩⟩
  · intro x hx hxd huniq
    have hslot : entriesFind d (reached ops).itemByDescription = some x ↔
        StorageManager.empty.lastAdded d none ops = some x := by
      rw [htrack.2 x]
      exact ⟨fun h => h.1, fun h => ⟨h, hx⟩⟩
    refine ⟨hslot, ?_, ?_⟩
    · constructor
      · intro hn hl
        rw [hslot.2 hl] at hn
        cases hn
      · intro hn
        cases hs : entriesFind d (reached ops).itemByDescription with
        | none => rfl
        | some e =>
          obtain ⟨hed, helive⟩ := hinv.2.2 d e hs
          rw [huniq e helive hed] at hs
          exact absurd (hslot.1 hs) hn
    · intro hl
      exact List.mem_map.2 ⟨(d, x), entriesFind_mem (hslot.2 hl), by rw [← hxd]⟩

theorem secondary_entry_iff_last_added_live_witness :
    StorageManager.empty.lastAdded "LED Light" none
        [.add ⟨"ITEM001", "LED Light", "Aisle 1"⟩, .add ⟨"ITEM002", "LED Light", "Aisle 2"⟩,
          .add ⟨"ITEM003", "Fan Motor", "Aisle 3"⟩]
      = some ⟨"ITEM002", "LED Light", "Aisle 2"⟩ ∧
    (reached [.add ⟨"ITEM001", "LED Light", "Aisle 1"⟩,
        .add ⟨"ITEM002", "LED Light", "Aisle 2"⟩,
        .add ⟨"ITEM003", "Fan Motor", "Aisle 3"⟩]).Live ⟨"ITEM002", "LED Light", "Aisle 2"⟩ ∧
    entriesFind "LED Light"
        (reached [.add ⟨"ITEM001", "LED Light", "Aisle 1"⟩,
          .add ⟨"ITEM002", "LED Light", "Aisle 2"⟩,
          .add ⟨"ITEM003", "Fan Motor", "Aisle 3"⟩]).itemByDescription
      = some ⟨"ITEM002", "LED Light", "Aisle 2"⟩ :=
  ⟨by decide, by unfold StorageManager.Live; decide,
   ((secondary_entry_iff_last_added_live
      [.add ⟨"ITEM001", "LED Light", "Aisle 1"⟩, .add ⟨"ITEM002", "LED Light", "Aisle 2"⟩,
        .add ⟨"ITEM003", "Fan Motor", "Aisle 3"⟩] "LED Light").1
      ⟨"ITEM002", "LED Light", "Aisle 2"⟩).2
      ⟨by decide, by unfold StorageManager.Live; decide⟩⟩

/-- C11, amended: in every reachable state and for every description, also
one shared by two or more live items, the secondary index holds exactly one
item under the description when the item last added under it is live, and
none otherwise (that item was removed). The item it holds is the item last
added under the description, it is live, and it is the most recently added of
the live items with that description; `liveByRecency` lists exactly the live
items, most recently added first. -/
theorem shared_description_holds_most_recent (ops : List Op) (d : String) :
    (∀ x, x ∈ StorageManager.empty.liveByRecency [] ops ↔ (reached ops).Live x) ∧
      (∀ e, StorageManager.empty.lastAdded d none ops = some e → (reached ops).Live e →
        entriesFind d (reached ops).itemByDescription = some e) ∧
      ((∃ e, entriesFind d (reached ops).itemByDescription = some e) ↔
        ∃ e, StorageManager.empty.lastAdded d none ops = some e ∧ (reached ops).Live e) ∧
      (entriesFind d (reached ops).itemByDescription = none ↔
        ∀ e, StorageManager.empty.lastAdded d none ops = some e → ¬ (reached ops).Live e) ∧
      (∀ e, entriesFind d (reached ops).itemByDescription = some e →
        StorageManager.empty.lastAdded d none ops = some e ∧
        (reached ops).Live e ∧ e.description = d ∧
        ((StorageManager.empty.liveByRecency [] ops).filter
          (fun x => x.description = d)).head? = some e ∧
        (∀ p ∈ (reached ops).itemByDescription, p.2.description = d → p = (d, e))) := by
  have hinv := invariant_reached ops
  have hrec := recency_run ops StorageManager.empty [] invariant_empty recency_empty
  have htrack := slotTracks_reached d ops
  refine ⟨hrec.1, ?_, ?_, ?_, ?_⟩
  · intro e hl hlive
    exact (htrack.2 e).2 ⟨hl, hlive⟩
  · constructor
    · rintro ⟨e, he⟩
      exact ⟨e, (htrack.2 e).1 he⟩
    · rintro ⟨e, he⟩
      exact ⟨e, (htrack.2 e).2 he⟩
  · constructor
    · intro hn e hl hlive
      rw [(htrack.2 e).2 ⟨hl, hlive⟩] at hn
      cases hn
    · intro hn
      cases hs : entriesFind d (reached ops).itemByDescription with
      | none => rfl
      | some e =>
        have he := (htrack.2 e).1 hs
        exact absurd he.2 (hn e he.1)
  · intro e hd
    obtain ⟨hdesc, hlive⟩ := hinv.2.2 d e hd
    refine ⟨((htrack.2 e).1 hd).1, hlive, hdesc, hrec.2 d e hd, ?_⟩
    intro p hp hpd
    have hkey := (entry_filed_under_description _ hinv.1 hinv.2 p hp).1
    have hfind := entriesFind_of_mem hinv.1.2 (show (p.1, p.2) ∈ _ from hp)
    have hp1 : p.1 = d := hkey.symm.trans hpd
    rw [hp1, hd] at hfind
    cases hfind
    exact Prod.ext hp1 rfl

theorem shared_description_holds_most_recent_witness :
    StorageManager.empty.lastAdded "LED Light" none
        [.add ⟨"ITEM001", "LED Light", "Aisle 1"⟩, .add ⟨"ITEM002", "LED Light", "Aisle 2"⟩]
      = some ⟨"ITEM002", "LED Light", "Aisle 2"⟩ ∧
    (reached [.add ⟨"ITEM001", "LED Light", "Aisle 1"⟩,
        .add ⟨"ITEM002", "LED Light", "Aisle 2"⟩]).Live ⟨"ITEM002", "LED Light", "Aisle 2"⟩ ∧
    StorageManager.empty.liveByRecency []
        [.add ⟨"ITEM001", "LED Light", "Aisle 1"⟩, .add ⟨"ITEM002", "LED Light", "Aisle 2"⟩]
      = [⟨"ITEM002", "LED Light", "Aisle 2"⟩, ⟨"ITEM001", "LED Light", "Aisle 1"⟩] ∧
    entriesFind "LED Light"
        (reached [.add ⟨"ITEM001", "LED Light", "Aisle 1"⟩,
          .add ⟨"ITEM002", "LED Light", "Aisle 2"⟩]).itemByDescription
      = some ⟨"ITEM002", "LED Light", "Aisle 2"⟩ :=
  ⟨by decide, by unfold StorageManager.Live; decide, by decide,
   (shared_description_holds_most_recent
      [.add ⟨"ITEM001", "LED Light", "Aisle 1"⟩, .add ⟨"ITEM002", "LED Light", "Aisle 2"⟩]
      "LED Light").2.1 ⟨"ITEM002", "LED Light", "Aisle 2"⟩
      (by decide) (by unfold StorageManager.Live; decide)⟩

/-! ## Update by remove-then-add -/

/-- C12: in every reachable state, for an id in the primary index and any
record `r` with that id, `removeItem` of the id followed by `addItem` of `r`
both return without throwing; afterwards `findById` on the id returns `r` and
the secondary index entry of the description of `r` is `r`. -/
theorem remove_then_add_replaces (ops : List Op) (id : String) (old r : StoredItem)
    (h : entriesFind id (reached ops).itemById = some old) (hr : r.id = id) :
    (reached ops).outcomes [.remove id, .add r] = [.ok (), .ok ()] ∧
      ((reached ops).removeItem id).1 = .ok () ∧
      (((reached ops).removeItem id).2.addItem r).1 = .ok () ∧
      (((reached ops).removeItem id).2.addItem r).2.findById id = .ok r ∧
      entriesFind r.description (((reached ops).removeItem id).2.addItem r).2.itemByDescription
        = some r := by
  have hinv := invariant_reached ops
  have hrm : ((reached ops).removeItem id).1 = .ok () := by
    rw [removeItem_present _ id old h]
  have hprim : ((reached ops).removeItem id).2.itemById
      = entriesErase id (reached ops).itemById := by
    rw [removeItem_present _ id old h]
  have habs : entriesFind r.id ((reached ops).removeItem id).2.itemById = none := by
    rw [hprim, hr]
    exact entriesFind_erase_self id hinv.1.1
  have hadd := addItem_absent ((reached ops).removeItem id).2 r habs
  have hadd1 : (((reached ops).removeItem id).2.addItem r).1 = .ok () := by rw [hadd]
  refine ⟨?_, hrm, hadd1, ?_, ?_⟩
  · show [((reached ops).removeItem id).1, (((reached ops).removeItem id).2.addItem r).1] = _
    rw [hrm, hadd1]
  · rw [hadd]
    apply findById_of_find
    show entriesFind id (entriesAssign r.id r _) = some r
    rw [← hr]
    exact entriesFind_assign_self _ _ _
  · rw [hadd]
    exact entriesFind_assign_self _ _ _

theorem remove_then_add_replaces_witness :
    entriesFind "ITEM001"
        (reached [.add ⟨"ITEM001", "LED Light", "Aisle 3, Shelf 1"⟩]).itemById
      = some ⟨"ITEM001", "LED Light", "Aisle 3, Shelf 1"⟩ ∧
    (StoredItem.mk "ITEM001" "Desk Lamp" "Aisle 9").id = "ITEM001" ∧
    (((reached [.add ⟨"ITEM001", "LED Light", "Aisle 3, Shelf 1"⟩]).removeItem
        "ITEM001").2.addItem ⟨"ITEM001", "Desk Lamp", "Aisle 9"⟩).2.findById "ITEM001"
      = .ok ⟨"ITEM001", "Desk Lamp", "Aisle 9"⟩ ∧
    (((reached [.add ⟨"ITEM001", "LED Light", "Aisle 3, Shelf 1"⟩]).removeItem
        "ITEM001").2.addItem ⟨"ITEM001", "Desk Lamp", "Aisle 9"⟩).2.listItemsByDescription
      = [("Desk Lamp", "Aisle 9")] :=
  ⟨by decide, rfl,
   (remove_then_add_replaces [.add ⟨"ITEM001", "LED Light", "Aisle 3, Shelf 1"⟩] "ITEM001"
      ⟨"ITEM001", "LED Light", "Aisle 3, Shelf 1"⟩ ⟨"ITEM001", "Desk Lamp", "Aisle 9"⟩
      (by decide) rfl).2.2.2.1,
   by decide⟩

/-! ## Read-only calls -/

/-- C13: `findById` and `listItemsByDescription` are read-only: for every
state and every such call, whether `findById` returns a record or throws, the
state after the call is the state before it (both indexes unchanged), and
making the same call again right away gives the same result. -/
theorem reads_leave_state_unchanged (m : StorageManager) (q : Query) :
    (m.ask q).2 = m ∧
      (m.ask q).2.itemById = m.itemById ∧
      (m.ask q).2.itemByDescription = m.itemByDescription ∧
      ((m.ask q).2.ask q).1 = (m.ask q).1 ∧
      (∀ id, (m.ask (.findById id)).1 = .item (m.findById id) ∧
        ((m.ask (.findById id)).2.ask (.findById id)).1 = .item (m.findById id)) ∧
      (m.ask .listItemsByDescription).1 = .listing m.listItemsByDescription ∧
      ((m.ask .listItemsByDescription).2.ask .listItemsByDescription).1
        = .listing m.listItemsByDescription := by
  cases q with
  | findById id => exact ⟨rfl, rfl, rfl, rfl, fun _ => ⟨rfl, rfl⟩, rfl, rfl⟩
  | listItemsByDescription => exact ⟨rfl, rfl, rfl, rfl, fun _ => ⟨rfl, rfl⟩, rfl, rfl⟩

/-! ## Well-formedness of the two indexes -/

/-- C14: the empty registry satisfies, and every call of `addItem` and of
`removeItem` (throwing or not) preserves, the predicate that every primary
index entry is filed under the id of its record and every secondary index
entry is filed under the description of its record, which the primary index
maps its id to. So in every reachable state `findById` on an id only returns
a record with that id, every listed pair comes from a live item, and after a
call of `removeItem` no secondary entry has the removed id. -/
theorem indexes_stay_consistent (ops : List Op) :
    (StorageManager.empty.WellFormed ∧ StorageManager.empty.Consistent) ∧
      (∀ (m : StorageManager) (item : StoredItem), m.WellFormed → m.Consistent →
        (m.addItem item).2.WellFormed ∧ (m.addItem item).2.Consistent) ∧
      (∀ (m : StorageManager) (id : String), m.WellFormed → m.Consistent →
        (m.removeItem id).2.WellFormed ∧ (m.removeItem id).2.Consistent) ∧
      (reached ops).Consistent ∧
      (∀ p ∈ (reached ops).itemById, p.2.id = p.1) ∧
      (∀ p ∈ (reached ops).itemByDescription,
        p.2.description = p.1 ∧ entriesFind p.2.id (reached ops).itemById = some p.2) ∧
      (∀ id x, (reached ops).findById id = .ok x → x.id = id) ∧
      (∀ q ∈ (reached ops).listItemsByDescription,
        ∃ x, (reached ops).Live x ∧ q = (x.description, x.location)) ∧
      (∀ id, ∀ p ∈ ((reached ops).removeItem id).2.itemByDescription, p.2.id ≠ id) := by
  have hinv := invariant_reached ops
  refine ⟨invariant_empty, ?_, ?_, hinv.2, ?_, ?_, ?_, ?_, ?_⟩
  · intro m item hw hc
    exact ⟨wellFormed_addItem m item hw, consistent_addItem m item hc⟩
  · intro m id hw hc
    exact ⟨wellFormed_removeItem m id hw, consistent_removeItem m id hw hc⟩
  · intro p hp
    exact hinv.2.1 p.1 p.2 (entriesFind_of_mem hinv.1.1 hp)
  · intro p hp
    exact entry_filed_under_description _ hinv.1 hinv.2 p hp
  · intro id x hx
    cases hf : entriesFind id (reached ops).itemById with
    | none =>
      rw [findById_of_none _ id hf] at hx
      cases hx
    | some y =>
      rw [findById_of_find _ id y hf] at hx
      have hxy : y = x := by injection hx
      rw [← hxy]
      exact hinv.2.1 id y hf
  · intro q hq
    obtain ⟨p, hp, rfl⟩ := List.mem_map.1 hq
    exact ⟨p.2, (entry_filed_under_description _ hinv.1 hinv.2 p hp).2, rfl⟩
  · intro id p hp
    have hw := wellFormed_removeItem (reached ops) id hinv.1
    have hc := consistent_removeItem (reached ops) id hinv.1 hinv.2
    have hlive := (entry_filed_under_description _ hw hc p hp).2
    exact ((live_after_removeItem (reached ops) id p.2 hinv.1).1 hlive).2

/-! ## Frame of the primary index -/

/-- C15: for every state, `addItem` changes the primary index at most at the
id of the item and `removeItem` at most at the removed id: for every other id
the lookup in the primary index, and so the result of `findById` (a record or
`ItemNotFoundException`), is the same before and after the call. -/
theorem primary_index_frame (m : StorageManager) (item : StoredItem) (id j : String)
    (hadd : j ≠ item.id) (hrem : j ≠ id) :
    entriesFind j (m.addItem item).2.itemById = entriesFind j m.itemById ∧
      (m.addItem item).2.findById j = m.findById j ∧
      entriesFind j (m.removeItem id).2.itemById = entriesFind j m.itemById ∧
      (m.removeItem id).2.findById j = m.findById j := by
  have h1 : entriesFind j (m.addItem item).2.itemById = entriesFind j m.itemById := by
    cases hf : entriesFind item.id m.itemById with
    | some x => rw [addItem_present m item x hf]
    | none =>
      rw [addItem_absent m item hf]
      exact entriesFind_assign_ne item hadd _
  have h2 : entriesFind j (m.removeItem id).2.itemById = entriesFind j m.itemById := by
    cases hf : entriesFind id m.itemById with
    | none => rw [removeItem_absent m id hf]
    | some x =>
      rw [removeItem_present m id x hf]
      exact entriesFind_erase_ne hrem _
  refine ⟨h1, ?_, h2, ?_⟩
  · unfold StorageManager.findById
    rw [h1]
  · unfold StorageManager.findById
    rw [h2]

theorem primary_index_frame_witness :
    "ITEM002" ≠ (StoredItem.mk "ITEM003" "Fan Motor" "Aisle 2, Shelf 5").id ∧
    "ITEM002" ≠ "ITEM001" ∧
    ((reached [.add ⟨"ITEM001", "LED Light", "Aisle 3, Shelf 1"⟩,
        .add ⟨"ITEM002", "Fan Motor", "Aisle 2, Shelf 5"⟩]).removeItem "ITEM001").2.findById
        "ITEM002"
      = .ok ⟨"ITEM002", "Fan Motor", "Aisle 2, Shelf 5"⟩ ∧
    ((reached [.add ⟨"ITEM001", "LED Light", "Aisle 3, Shelf 1"⟩,
        .add ⟨"ITEM002", "Fan Motor", "Aisle 2, Shelf 5"⟩]).addItem
          ⟨"ITEM003", "Fan Motor", "Aisle 2, Shelf 5"⟩).2.findById "ITEM002"
      = (reached [.add ⟨"ITEM001", "LED Light", "Aisle 3, Shelf 1"⟩,
        .add ⟨"ITEM002", "Fan Motor", "Aisle 2, Shelf 5"⟩]).findById "ITEM002" :=
  ⟨by decide, by decide, by decide,
   (primary_index_frame
      (reached [.add ⟨"ITEM001", "LED Light", "Aisle 3, Shelf 1"⟩,
        .add ⟨"ITEM002", "Fan Motor", "Aisle 2, Shelf 5"⟩])
      ⟨"ITEM003", "Fan Motor", "Aisle 2, Shelf 5"⟩ "ITEM001" "ITEM002"
      (by decide) (by decide)).2.1⟩

/-! ## Adding an item and removing it again -/

theorem entriesErase_assign (k : String) (v : StoredItem) :
    ∀ {l : List (String × StoredItem)}, KeysAscending l →
      entriesErase k (entriesAssign k v l) = entriesErase k l
  | [], _ => by simp [entriesAssign, entriesErase]
  | (k', v') :: rest, hs => by
    have hs' := hs
    unfold KeysAscending at hs'
    rw [List.pairwise_cons] at hs'
    unfold entriesAssign
    split
    · rename_i hlt
      have hlt' : k < k' := (strLess_iff k k').1 hlt
      have hnone : entriesFind k ((k', v') :: rest) = none := by
        apply entriesFind_none_of_lt
        intro e he
        rcases List.mem_cons.1 he with he | he
        · rw [he]; exact hlt'
        · exact lt_trans hlt' (hs'.1 e he)
      rw [entriesErase_of_find_none hnone]
      simp [entriesErase]
    · split
      · rename_i hk
        subst hk
        simp [entriesErase]
      · rename_i hne
        have hne' : ¬ k' = k := fun he => hne he.symm
        simp only [entriesErase, hne', if_false]
        rw [entriesErase_assign k v hs'.2]

theorem entriesErase_eq_self_iff {k : String} {l : List (String × StoredItem)}
    (hl : KeysAscending l) : entriesErase k l = l ↔ entriesFind k l = none := by
  constructor
  · intro he
    rw [← he]
    exact entriesFind_erase_self k hl
  · exact entriesErase_of_find_none

theorem add_then_remove_state (m : StorageManager) (item : StoredItem) (hw : m.WellFormed)
    (h : entriesFind item.id m.itemById = none) :
    (m.addItem item).2.removeItem item.id =
      (.ok (), ⟨m.itemById, entriesErase item.description m.itemByDescription⟩) := by
  rw [addItem_absent m item h,
    removeItem_present _ item.id item (entriesFind_assign_self _ _ _)]
  have h1 : entriesErase item.id (entriesAssign item.id item m.itemById) = m.itemById := by
    rw [entriesErase_assign item.id item hw.1]
    exact entriesErase_of_find_none h
  have h2 : entriesErase item.description
      (entriesAssign item.description item m.itemByDescription)
        = entriesErase item.description m.itemByDescription :=
    entriesErase_assign item.description item hw.2
  simp only [entriesFind_assign_self, if_true, h1, h2]

/-- C16: in every reachable state `s` and for every item whose id is not in
`s`, `addItem` of the item followed by `removeItem` of its id (both return
without throwing) gives the primary index of `s` and the secondary index of
`s` with the entry of the item's description erased. The state is `s` again
exactly when `s` had no secondary entry for that description; when it had
one, its record, which was listed, is still returned by `findById` but is in
no secondary entry and its description is no longer listed. -/
theorem add_then_remove_round_trip (ops : List Op) (item : StoredItem)
    (h : entriesFind item.id (reached ops).itemById = none) :
    (reached ops).outcomes [.add item, .remove item.id] = [.ok (), .ok ()] ∧
      (((reached ops).addItem item).2.removeItem item.id).2.itemById
        = (reached ops).itemById ∧
      (((reached ops).addItem item).2.removeItem item.id).2.itemByDescription
        = entriesErase item.description (reached ops).itemByDescription ∧
      ((((reached ops).addItem item).2.removeItem item.id).2 = reached ops ↔
        entriesFind item.description (reached ops).itemByDescription = none) ∧
      (∀ e, entriesFind item.description (reached ops).itemByDescription = some e →
        (e.description, e.location) ∈ (reached ops).listItemsByDescription ∧
        (((reached ops).addItem item).2.removeItem item.id).2.findById e.id = .ok e ∧
        (∀ p ∈ (((reached ops).addItem item).2.removeItem item.id).2.itemByDescription,
          p.2 ≠ e) ∧
        (∀ q ∈ (((reached ops).addItem item).2.removeItem item.id).2.listItemsByDescription,
          q.1 ≠ e.description)) := by
  have hinv := invariant_reached ops
  have hstate := add_then_remove_state (reached ops) item hinv.1 h
  have hadd1 : ((reached ops).addItem item).1 = .ok () := by
    rw [addItem_absent _ item h]
  have hnoentry : ∀ p ∈ entriesErase item.description (reached ops).itemByDescription,
      p.1 ≠ item.description := by
    intro p hp hp1
    have hasc := entriesErase_ascending item.description hinv.1.2
    have hfind := entriesFind_of_mem hasc (show (p.1, p.2) ∈ _ from hp)
    rw [hp1, entriesFind_erase_self _ hinv.1.2] at hfind
    cases hfind
  refine ⟨?_, ?_, ?_, ?_, ?_⟩
  · show [((reached ops).addItem item).1,
      (((reached ops).addItem item).2.removeItem item.id).1] = _
    rw [hadd1, hstate]
  · rw [hstate]
  · rw [hstate]
  · rw [hstate]
    constructor
    · intro he
      have he2 : entriesErase item.description (reached ops).itemByDescription
          = (reached ops).itemByDescription := congrArg StorageManager.itemByDescription he
      exact (entriesErase_eq_self_iff hinv.1.2).1 he2
    · intro hn
      show StorageManager.mk _ _ = reached ops
      rw [entriesErase_of_find_none hn]
  · intro e he
    obtain ⟨hdesc, hlive⟩ := hinv.2.2 _ e he
    rw [hstate]
    refine ⟨List.mem_map.2 ⟨(item.description, e), entriesFind_mem he, rfl⟩,
      findById_of_find _ _ _ hlive, ?_, ?_⟩
    · intro p hp hpe
      have hp' : p ∈ entriesErase item.description (reached ops).itemByDescription := hp
      have hkey := (entry_filed_under_description _ hinv.1 hinv.2 p (entriesErase_mem hp')).1
      apply hnoentry p hp'
      rw [← hkey, hpe, hdesc]
    · intro q hq hq1
      obtain ⟨p, hp, rfl⟩ := List.mem_map.1 hq
      have hp' : p ∈ entriesErase item.description (reached ops).itemByDescription := hp
      have hkey := (entry_filed_under_description _ hinv.1 hinv.2 p (entriesErase_mem hp')).1
      apply hnoentry p hp'
      rw [← hkey]
      exact hq1.trans hdesc

theorem add_then_remove_round_trip_witness :
    entriesFind (StoredItem.mk "ITEM002" "LED Light" "Aisle 7").id
        (reached [.add ⟨"ITEM001", "LED Light", "Aisle 3, Shelf 1"⟩]).itemById = none ∧
    (((reached [.add ⟨"ITEM001", "LED Light", "Aisle 3, Shelf 1"⟩]).addItem
        ⟨"ITEM002", "LED Light", "Aisle 7"⟩).2.removeItem "ITEM002").2
      = ⟨[("ITEM001", ⟨"ITEM001", "LED Light", "Aisle 3, Shelf 1"⟩)], []⟩ ∧
    (((reached [.add ⟨"ITEM001", "LED Light", "Aisle 3, Shelf 1"⟩]).addItem
        ⟨"ITEM002", "LED Light", "Aisle 7"⟩).2.removeItem
          (StoredItem.mk "ITEM002" "LED Light" "Aisle 7").id).2.itemById
      = (reached [.add ⟨"ITEM001", "LED Light", "Aisle 3, Shelf 1"⟩]).itemById :=
  ⟨by decide, by decide,
   (add_then_remove_round_trip [.add ⟨"ITEM001", "LED Light", "Aisle 3, Shelf 1"⟩]
      ⟨"ITEM002", "LED Light", "Aisle 7"⟩ (by decide)).2.1⟩

/-! ## Size of the listing -/

theorem secondary_records_nodup (m : StorageManager) (hw : m.WellFormed) (hc : m.Consistent) :
    (m.itemByDescription.map Prod.snd).Nodup := by
  unfold List.Nodup
  rw [List.pairwise_map]
  refine List.Pairwise.imp_of_mem ?_ hw.2
  intro a b ha hb hab heq
  have h1 := (entry_filed_under_description m hw hc a ha).1
  have h2 := (entry_filed_under_description m hw hc b hb).1
  rw [← h1, ← h2, heq] at hab
  exact lt_irrefl _ hab

theorem secondary_at_most_primary (m : StorageManager) (hw : m.WellFormed)
    (hc : m.Consistent) : m.itemByDescription.length ≤ m.itemById.length := by
  have hnd : ((m.itemByDescription.map Prod.snd).map (fun x => (x.id, x))).Nodup := by
    refine (secondary_records_nodup m hw hc).map ?_
    intro x y hxy
    exact congrArg Prod.snd hxy
  have hsub : (m.itemByDescription.map Prod.snd).map (fun x => (x.id, x)) ⊆ m.itemById := by
    intro p hp
    obtain ⟨x, hx, rfl⟩ := List.mem_map.1 hp
    obtain ⟨e, he, rfl⟩ := List.mem_map.1 hx
    exact entriesFind_mem (entry_filed_under_description m hw hc e he).2
  have hle := (List.subperm_of_subset hnd hsub).length_le
  simpa using hle

/-- C17: in every reachable state the listing has at most as many entries as
the primary index has ids (its keys are pairwise distinct), and the entries of
the listing come from pairwise distinct records, each of them live. The two
numbers can differ: after two items with the same description are added, the
listing has one entry and the primary index two ids. -/
theorem listing_at_most_live_items (ops : List Op) :
    (reached ops).listItemsByDescription.length ≤ (reached ops).itemById.length ∧
      ((reached ops).itemById.map Prod.fst).Nodup ∧
      (reached ops).listItemsByDescription.length = (reached ops).itemByDescription.length ∧
      ((reached ops).itemByDescription.map Prod.snd).Nodup ∧
      (∀ x ∈ (reached ops).itemByDescription.map Prod.snd, (reached ops).Live x) ∧
      (reached [.add ⟨"ITEM001", "LED Light", "Aisle 3, Shelf 1"⟩,
          .add ⟨"ITEM002", "LED Light", "Aisle 7"⟩]).listItemsByDescription.length
        < (reached [.add ⟨"ITEM001", "LED Light", "Aisle 3, Shelf 1"⟩,
          .add ⟨"ITEM002", "LED Light", "Aisle 7"⟩]).itemById.length := by
  have hinv := invariant_reached ops
  refine ⟨?_, ?_, ?_, secondary_records_nodup _ hinv.1 hinv.2, ?_, by decide⟩
  · unfold StorageManager.listItemsByDescription
    rw [List.length_map]
    exact secondary_at_most_primary _ hinv.1 hinv.2
  · unfold List.Nodup
    rw [List.pairwise_map]
    exact hinv.1.1.imp (fun hab => ne_of_lt hab)
  · unfold StorageManager.listItemsByDescription
    rw [List.length_map]
  · intro x hx
    obtain ⟨e, he, rfl⟩ := List.mem_map.1 hx
    exact (entry_filed_under_description _ hinv.1 hinv.2 e he).2
